import Mathlib

/-
Shallow embedding of src/radio_editor.py: the parsing and writing core for
the live_streams.sii station file, together with the backup and link
helpers.  Text is modeled as List Char; one file line (terminator
included) is a List Char, a file is the join of its lines.  Regular
expressions from the source are translated to explicit matching functions
on character lists.
-/

set_option synthInstance.maxHeartbeats 1000000

deriving instance DecidableEq for Except

namespace RadioEditor

/-! ### Character classes and small string helpers -/

/-- Characters treated as line boundaries by Python str.splitlines. -/
def isLineBreak (c : Char) : Bool :=
  c = '\n' || c = '\r' || c = '\x0b' || c = '\x0c' ||
  c = '\x1c' || c = '\x1d' || c = '\x1e' || c = '\x85' || c = '\u2028' || c = '\u2029'

/-- Whitespace, as in the Python regex class for spaces and in str.strip. -/
def isPySpace (c : Char) : Bool := c = ' ' || c = '\t' || isLineBreak c

/-- Python str.strip with no argument: drop whitespace at both ends. -/
def pyStrip (cs : List Char) : List Char :=
  ((cs.dropWhile isPySpace).reverse.dropWhile isPySpace).reverse

/-- Python line.rstrip with a newline argument: drop trailing newline characters. -/
def pyRstripNl (cs : List Char) : List Char :=
  (cs.reverse.dropWhile (fun c => c = '\n')).reverse

/-- Remove a literal prefix, returning the remainder on success. -/
def stripPfx : List Char → List Char → Option (List Char)
  | [], cs => some cs
  | _ :: _, [] => none
  | p :: ps, c :: cs => if c = p then stripPfx ps cs else none

def streamDataLit : List Char := ['s', 't', 'r', 'e', 'a', 'm', '_', 'd', 'a', 't', 'a']

/-- Python str.split with a one-character separator: no collapsing, at least one part. -/
def splitOnChar (sep : Char) : List Char → List (List Char)
  | [] => [[]]
  | c :: rest =>
    if c = sep then [] :: splitOnChar sep rest
    else
      match splitOnChar sep rest with
      | p :: ps => (c :: p) :: ps
      | [] => [[c]]

/-! ### Python int parsing and rendering -/

def digitVal (c : Char) : Nat := c.toNat - 48

/-- Digit-and-underscore tail of a Python integer literal. -/
def pyNatGo : Nat → List Char → Option Nat
  | acc, [] => some acc
  | acc, c :: rest =>
    if c.isDigit then pyNatGo (acc * 10 + digitVal c) rest
    else if c = '_' then
      match rest with
      | d :: _ => if d.isDigit then pyNatGo acc rest else none
      | [] => none
    else none

def pyNatOfChars : List Char → Option Nat
  | [] => none
  | c :: rest => if c.isDigit then pyNatGo (digitVal c) rest else none

/-- Python int applied to a string: optional surrounding whitespace, optional
sign, decimal digits with single underscores between digits. -/
def pyIntOfChars (cs : List Char) : Option Int :=
  match pyStrip cs with
  | '+' :: rest => (pyNatOfChars rest).map (fun n => (n : Int))
  | '-' :: rest => (pyNatOfChars rest).map (fun n => -(n : Int))
  | rest => (pyNatOfChars rest).map (fun n => (n : Int))

/-- The try-int-except-default-zero idiom of the parser. -/
def pyIntOr0 (cs : List Char) : Int := (pyIntOfChars cs).getD 0

def digitChar (n : Nat) : Char := Char.ofNat (48 + n)

def natCharsAux : Nat → Nat → List Char → List Char
  | 0, _, acc => acc
  | fuel + 1, n, acc =>
    if n < 10 then digitChar n :: acc
    else natCharsAux fuel (n / 10) (digitChar (n % 10) :: acc)

/-- Decimal rendering of a natural number, as Python str. -/
def natChars (n : Nat) : List Char := natCharsAux (n + 1) n []

/-- Decimal rendering of an integer, as Python str. -/
def intChars (i : Int) : List Char :=
  if i < 0 then '-' :: natChars i.natAbs else natChars i.toNat

/-! ### The two regular expressions of the source -/

/-- STREAM_RE: a line of shape spaces, stream_data, bracketed digits, colon,
a quoted payload, trailing spaces.  Returns the ordinal digits and payload.
The greedy payload group with the closing quote and trailing spaces matches
exactly when, after stripping trailing whitespace, a quote remains whose
left part is free of newlines. -/
def streamMatch (cs : List Char) : Option (List Char × List Char) :=
  (stripPfx (streamDataLit ++ ['[']) (cs.dropWhile isPySpace)).bind fun r2 =>
    let ds := r2.takeWhile Char.isDigit
    if ds = [] then none
    else
      (stripPfx [']'] (r2.dropWhile Char.isDigit)).bind fun r4 =>
        (stripPfx [':'] (r4.dropWhile isPySpace)).bind fun r5 =>
          (stripPfx ['"'] (r5.dropWhile isPySpace)).bind fun r6 =>
            (stripPfx ['"'] (r6.reverse.dropWhile isPySpace)).bind fun payloadRev =>
              if '\n' ∈ payloadRev.reverse then none
              else some (ds, payloadRev.reverse)

/-- STREAM_COUNT_RE: group decomposition of a record-count line into
the part before the digits, the digits, and the trailing spaces. -/
def countMatch (cs : List Char) : Option (List Char × List Char × List Char) :=
  let sp1 := cs.takeWhile isPySpace
  match stripPfx streamDataLit (cs.dropWhile isPySpace) with
  | none => none
  | some r2 =>
    let sp2 := r2.takeWhile isPySpace
    match stripPfx [':'] (r2.dropWhile isPySpace) with
    | none => none
    | some r4 =>
      let sp3 := r4.takeWhile isPySpace
      let r5 := r4.dropWhile isPySpace
      let ds := r5.takeWhile Char.isDigit
      let r6 := r5.dropWhile Char.isDigit
      if ds = [] then none
      else if r6.all isPySpace then
        some (sp1 ++ streamDataLit ++ sp2 ++ [':'] ++ sp3, ds, r6)
      else none

/-! ### Station codec -/

structure Station where
  url : List Char
  name : List Char
  genre : List Char
  language : List Char
  bitrate : Int
  favorite : Bool
deriving DecidableEq

/-- Decode one raw line into a station, as the parser loop body does:
match STREAM_RE against the newline-stripped line, split the payload on
the pipe character into exactly six fields, strip fields, parse bitrate
with a zero default, favorite is the stripped flag equal to 1. -/
def decodeLine (line : List Char) : Option Station :=
  match streamMatch (pyRstripNl line) with
  | none => none
  | some (_, payload) =>
    match splitOnChar '|' payload with
    | [u, n, g, la, b, f] =>
      some { url := pyStrip u, name := pyStrip n, genre := pyStrip g,
             language := pyStrip la, bitrate := pyIntOr0 b,
             favorite := decide (pyStrip f = ['1']) }
    | _ => none

inductive WriteErr
  | fieldContainsDelimiter
deriving DecidableEq

/-- The rendered station line of station_to_line, newline included. -/
def encodedLine (i : Nat) (s : Station) : List Char :=
  streamDataLit ++ ['['] ++ natChars i ++ [']', ':', ' ', '"'] ++
  s.url ++ ['|'] ++ s.name ++ ['|'] ++ s.genre ++ ['|'] ++ s.language ++ ['|'] ++
  intChars s.bitrate ++ ['|'] ++ [if s.favorite then '1' else '0'] ++ ['"', '\n']

/-- The payload between the quotes of an encoded station line. -/
def payloadOf (s : Station) : List Char :=
  s.url ++ ['|'] ++ s.name ++ ['|'] ++ s.genre ++ ['|'] ++ s.language ++ ['|'] ++
  intChars s.bitrate ++ ['|'] ++ [if s.favorite then '1' else '0']

/-- station_to_line: reject any of the four string fields containing the
delimiter, otherwise render the line. -/
def station_to_line (i : Nat) (s : Station) : Except WriteErr (List Char) :=
  if '|' ∈ s.url ∨ '|' ∈ s.name ∨ '|' ∈ s.genre ∨ '|' ∈ s.language then
    .error .fieldContainsDelimiter
  else .ok (encodedLine i s)

/-- The list comprehension over enumerate(stations) in write_live_streams. -/
def encodeStationsFrom : Nat → List Station → Except WriteErr (List (List Char))
  | _, [] => .ok []
  | i, s :: rest =>
    match station_to_line i s with
    | .error e => .error e
    | .ok l =>
      match encodeStationsFrom (i + 1) rest with
      | .error e => .error e
      | .ok ls => .ok (l :: ls)

/-! ### Splitting a text into lines, keeping terminators -/

/-- Worker for Python splitlines keeping line ends; acc holds the current
line read so far, reversed.  A carriage return followed by a newline is one
terminator; any other break character ends a line by itself. -/
def splitAux : List Char → List Char → List (List Char)
  | [], acc => if acc = [] then [] else [acc.reverse]
  | [c], acc =>
    if isLineBreak c then [acc.reverse ++ [c]]
    else [(c :: acc).reverse]
  | c :: d :: rest, acc =>
    if c = '\r' then
      if d = '\n' then (acc.reverse ++ ['\r', '\n']) :: splitAux rest []
      else (acc.reverse ++ ['\r']) :: splitAux (d :: rest) []
    else if isLineBreak c then (acc.reverse ++ [c]) :: splitAux (d :: rest) []
    else splitAux (d :: rest) (c :: acc)

/-- Python text.splitlines keeping line terminators. -/
def splitlinesKeep (cs : List Char) : List (List Char) := splitAux cs []


/-- Join lines back into a text, as the join of strings in the source. -/
def joinL (ls : List (List Char)) : List Char := ls.flatten

/-! ### Parsing -/

inductive ParseErr
  | fileNotFound
  | noStationsFound
deriving DecidableEq

structure ParsedDoc where
  lines : List (List Char)
  station_line_indexes : List Nat
  stations : List Station
deriving DecidableEq

/-- The indexes collected by the parser loop: positions whose line decodes. -/
def stationIdxsFrom : Nat → List (List Char) → List Nat
  | _, [] => []
  | pos, l :: rest =>
    if (decodeLine l).isSome then pos :: stationIdxsFrom (pos + 1) rest
    else stationIdxsFrom (pos + 1) rest

/-- parse_live_streams: a missing file fails, a file with no decoding line
fails, otherwise the raw lines, the station line indexes and the decoded
stations are returned.  The file is the optional content at the path. -/
def parse_live_streams (file : Option (List Char)) : Except ParseErr ParsedDoc :=
  match file with
  | none => .error .fileNotFound
  | some text =>
    let lines := splitlinesKeep text
    let stations := lines.filterMap decodeLine
    if stations = [] then .error .noStationsFound
    else .ok { lines := lines, station_line_indexes := stationIdxsFrom 0 lines,
               stations := stations }

/-! ### Writing -/

/-- A line counted into the trailing brace tail: blank or a lone closing brace. -/
def isTailLine (l : List Char) : Bool :=
  decide (pyStrip l = []) || decide (pyStrip l = ['\x7d'])

/-- find_trailing_brace_tail_start: index of the first line of the trailing
run of blank or closing-brace lines. -/
def find_trailing_brace_tail_start (lines : List (List Char)) : Nat :=
  lines.length - (lines.reverse.takeWhile isTailLine).length

/-- update_stream_data_count_line: rewrite the digits of the first line
matching the count pattern, keeping the surrounding groups and the newline;
report whether a line was rewritten. -/
def update_stream_data_count_line (count : Nat) :
    List (List Char) → List (List Char) × Bool
  | [] => ([], false)
  | l :: rest =>
    match countMatch (pyRstripNl l) with
    | some (pre, _, suf) =>
      ((pre ++ natChars count ++ suf ++
        (if l.getLast? = some '\n' then ['\n'] else [])) :: rest, true)
    | none =>
      let r := update_stream_data_count_line count rest
      (l :: r.1, r.2)


/-- The newline appended back by the count-line rewrite. -/
def termNl (l : List Char) : List Char :=
  if l.getLast? = some '\n' then ['\n'] else []

/-- The replacement line written for a matching count line. -/
def rebuiltCount (n : Nat) (l : List Char) : List Char :=
  match countMatch (pyRstripNl l) with
  | some (pre, _, suf) => pre ++ natChars n ++ suf ++ termNl l
  | none => l

/-- Position of the first line matching the count pattern. -/
def firstCountIdx : List (List Char) → Option Nat
  | [] => none
  | l :: rest =>
    if (countMatch (pyRstripNl l)).isSome then some 0
    else (firstCountIdx rest).map (· + 1)

/-- The lines left when the first count-matching line (if any) is removed:
the original lines a write never touches. -/
def dropFirstCount : List (List Char) → List (List Char)
  | [] => []
  | l :: rest =>
    if (countMatch (pyRstripNl l)).isSome then rest
    else l :: dropFirstCount rest

inductive Strategy
  | in_place
  | new_slot
deriving DecidableEq

/-- Deletion of the station lines: indexes sorted, then removed from the
highest to the lowest, as the reversed loop of the source. -/
def removeStations (lines : List (List Char)) (sidxs : List Nat) : List (List Char) :=
  sidxs.reverse.foldl (fun acc i => acc.eraseIdx i) lines

/-- The new_slot assembly of write_live_streams: insert the block before the
trailing brace tail, with separator blank lines as in the source. -/
def newSlotAssemble (ls block : List (List Char)) : List (List Char) :=
  let ts := find_trailing_brace_tail_start ls
  let pre := ls.take ts
  let tail := ls.drop ts
  let pre2 :=
    match pre.getLast? with
    | some p => if pyStrip p = [] then pre else pre ++ [['\n']]
    | none => pre
  let block2 :=
    match tail.head? with
    | some t0 =>
      if pyStrip t0 = ['\x7d'] then
        match block.getLast? with
        | some b0 => if pyStrip b0 = [] then block else block ++ [['\n']]
        | none => block
      else block
    | none => block
  pre2 ++ block2 ++ tail

/-- The line surgery of write_live_streams: delete old station lines, then
place the freshly encoded block according to the strategy. -/
def placeBlock (lines : List (List Char)) (idxs : List Nat)
    (block : List (List Char)) (strategy : Strategy) : List (List Char) :=
  let sidxs := List.insertionSort (· ≤ ·) idxs
  let ls := removeStations lines sidxs
  match strategy with
  | .new_slot =>
    let ts := find_trailing_brace_tail_start ls
    let pre := ls.take ts
    let tail := ls.drop ts
    let pre2 :=
      match pre.getLast? with
      | some p => if pyStrip p = [] then pre else pre ++ [['\n']]
      | none => pre
    let block2 :=
      match tail.head? with
      | some t0 =>
        if pyStrip t0 = ['\x7d'] then
          match block.getLast? with
          | some b0 => if pyStrip b0 = [] then block else block ++ [['\n']]
          | none => block
        else block
      | none => block
    pre2 ++ block2 ++ tail
  | .in_place =>
    let first := min (sidxs.headD 0) ls.length
    ls.take first ++ block ++ ls.drop first

structure WriteOutcome where
  newLines : List (List Char)
  backupDirName : List Char
  backupFileName : List Char
  backupContent : List Char
deriving DecidableEq

/-- write_live_streams: back up the joined original lines into the fixed
backup folder next to the file, encode the station list (which can fail on
a delimiter), rebuild the line sequence per strategy, repair the count
line, and produce the new file content as the join of the result. -/
def write_live_streams (fileName ts : List Char) (original_lines : List (List Char))
    (station_line_indexes : List Nat) (stations : List Station)
    (strategy : Strategy) : Except WriteErr WriteOutcome :=
  match encodeStationsFrom 0 stations with
  | .error e => .error e
  | .ok block =>
    let placed := placeBlock original_lines station_line_indexes block strategy
    .ok { newLines := (update_stream_data_count_line stations.length placed).1,
          backupDirName := "live_streams_backup".toList,
          backupFileName := fileName ++ ".bak_".toList ++ ts,
          backupContent := joinL original_lines }

/-- Content of the destination file after a write attempt: the new joined
lines on success, the prior content untouched on failure. -/
def destFileAfterWrite (content : List Char) (fileName ts : List Char)
    (original_lines : List (List Char)) (idxs : List Nat)
    (stations : List Station) (strategy : Strategy) : List Char :=
  match write_live_streams fileName ts original_lines idxs stations strategy with
  | .ok w => joinL w.newLines
  | .error _ => content

/-! ### Link destination backup and elevated symlink temp files -/

inductive DestState
  | absent
  | danglingSymlink
  | symlinkFile
  | directory
  | regularFile
deriving DecidableEq

/-- p.exists() or p.is_symlink(). -/
def path_exists_any : DestState → Bool
  | .absent => false
  | _ => true

def destIsDir : DestState → Bool
  | .directory => true
  | _ => false

def destIsSymlink : DestState → Bool
  | .danglingSymlink => true
  | .symlinkFile => true
  | _ => false

structure BackupResult where
  backupName : Option (List Char)
  destRemoved : Bool
deriving DecidableEq

/-- safe_backup_existing_dest: nothing for an absent destination; remove a
symlink or directory with no backup; rename a regular file to a backup
name, timestamped when the plain backup name is taken. -/
def safe_backup_existing_dest (dest : DestState) (destName : List Char)
    (plainBackupTaken : Bool) (ts : List Char) : BackupResult :=
  if path_exists_any dest = false then { backupName := none, destRemoved := false }
  else if destIsDir dest || destIsSymlink dest then
    { backupName := none, destRemoved := true }
  else
    { backupName := some (if plainBackupTaken
        then destName ++ ".backup_".toList ++ ts
        else destName ++ ".backup".toList),
      destRemoved := true }

structure MklinkTempState where
  cmdFileExists : Bool
  logFileExists : Bool
deriving DecidableEq

/-- mklink_symlink_admin, reduced to its observable effects: the script
file is written, the elevated child may create the log file, the log is
read for diagnostics, the script alone is best-effort unlinked (failures
swallowed), the destination presence decides success, and the log file is
left in place. -/
def mklink_symlink_admin (destExistsAfter childCreatesLog : Bool)
    (logContent procOut : List Char) (unlinkOk : Bool) :
    (Bool × List Char) × MklinkTempState :=
  let output := if childCreatesLog then pyStrip logContent else []
  let temp : MklinkTempState :=
    { cmdFileExists := !unlinkOk, logFileExists := childCreatesLog }
  if destExistsAfter then
    ((true, if output = [] then "mklink completed.".toList else output), temp)
  else
    let extra := pyStrip procOut
    let output2 :=
      if extra ≠ [] ∧ output ≠ [] then output ++ ['\n', '\n'] ++ extra
      else if extra ≠ [] then extra
      else output
    ((false, if output2 = [] then "mklink failed or was canceled.".toList else output2),
     temp)


/-! ### Well-formedness predicates for lines and texts -/

/-- No line break characters occur among these characters. -/
def cleanBody (cs : List Char) : Bool := cs.all (fun c => !isLineBreak c)

/-- A nonempty line with no break characters at all: a final line that has
no terminator. -/
def bareLine (l : List Char) : Bool := decide (l ≠ []) && cleanBody l

/-- A clean body followed by a newline or carriage-return-newline
terminator. -/
def isNlLine (l : List Char) : Bool :=
  decide (l.getLast? = some '\n') &&
    (if l.dropLast.getLast? = some '\r' then cleanBody l.dropLast.dropLast
     else cleanBody l.dropLast)

/-- Every line newline-terminated, except that the last may be bare. -/
def nlShaped : List (List Char) → Bool
  | [] => true
  | [l] => isNlLine l || bareLine l
  | l :: l2 :: rest => isNlLine l && nlShaped (l2 :: rest)

/-- Line lists arising in the writer: newline-terminated lines, except at
most one bare line that is last or directly followed by a blank line. -/
def okLines : List (List Char) → Bool
  | [] => true
  | [l] => isNlLine l || bareLine l
  | l :: l2 :: rest =>
    if isNlLine l then okLines (l2 :: rest)
    else bareLine l && decide (l2 = ['\n']) && (l2 :: rest).all isNlLine

/-- Texts in which every carriage return is part of a CRLF terminator and
no exotic break character occurs: splitting such a text only yields
newline-terminated lines and possibly one final bare line. -/
def textOk : List Char → Bool
  | [] => true
  | [c] => !isLineBreak c || c = '\n'
  | c :: d :: rest =>
    if c = '\r' then decide (d = '\n') && textOk rest
    else (!isLineBreak c || c = '\n') && textOk (d :: rest)


/-- The lines whose position is not among the given indexes, in order:
the positional description of deleting the station lines. -/
def keepNonIdxs {α : Type} (idxs : List Nat) : Nat → List α → List α
  | _, [] => []
  | pos, a :: rest =>
    if pos ∈ idxs then keepNonIdxs idxs (pos + 1) rest
    else a :: keepNonIdxs idxs (pos + 1) rest

/-- Horner evaluation of a digit list, used to state decoding of renderings. -/
def valD : Nat → List Char → Nat
  | v, [] => v
  | v, c :: r => valD (v * 10 + digitVal c) r

/-- Station fields that round trip: strip-invariant and free of break
characters. -/
def cleanField (f : List Char) : Prop := pyStrip f = f ∧ cleanBody f = true

instance cleanFieldDecidable (f : List Char) : Decidable (cleanField f) := by
  unfold cleanField
  exact inferInstance

/-- A station whose four text fields are strip-invariant and free of line
break characters. -/
def cleanStation (s : Station) : Prop :=
  cleanField s.url ∧ cleanField s.name ∧ cleanField s.genre ∧ cleanField s.language

instance cleanStationDecidable (s : Station) : Decidable (cleanStation s) := by
  unfold cleanStation
  exact inferInstance

/-! ### Utility lemmas: prefixes, strips, splitting on a character -/

theorem stripPfx_self_append (p r : List Char) : stripPfx p (p ++ r) = some r := by
  induction p with
  | nil => rfl
  | cons c ps ih => simp [stripPfx, ih]

theorem stripPfx_eq_some {p cs r : List Char} (h : stripPfx p cs = some r) :
    cs = p ++ r := by
  induction p generalizing cs with
  | nil => simpa [stripPfx] using h
  | cons c ps ih =>
    cases cs with
    | nil => simp [stripPfx] at h
    | cons d ds =>
      by_cases hd : d = c
      · subst hd
        simpa using ih (by simpa [stripPfx] using h)
      · simp [stripPfx, hd] at h

theorem stripPfx_append (p q cs : List Char) :
    stripPfx (p ++ q) cs = (stripPfx p cs).bind (stripPfx q) := by
  induction p generalizing cs with
  | nil => simp [stripPfx]
  | cons c ps ih =>
    cases cs with
    | nil => simp [stripPfx]
    | cons d ds =>
      by_cases hd : d = c
      · simp [stripPfx, hd, ih]
      · simp [stripPfx, hd]

theorem stripPfx_snoc_mismatch {p : List Char} {a b : Char} (h : b ≠ a) (r : List Char) :
    stripPfx (p ++ [a]) (p ++ b :: r) = none := by
  rw [stripPfx_append, stripPfx_self_append]
  simp [stripPfx, h]

theorem pyRstripNl_append_nl (cs : List Char) :
    pyRstripNl (cs ++ ['\n']) = pyRstripNl cs := by
  simp [pyRstripNl, List.dropWhile]

theorem pyRstripNl_of_not_mem {cs : List Char} (h : '\n' ∉ cs) : pyRstripNl cs = cs := by
  unfold pyRstripNl
  have hd : cs.reverse.dropWhile (fun c => c = '\n') = cs.reverse := by
    cases hr : cs.reverse with
    | nil => rfl
    | cons a t =>
      have ha : a ∈ cs := by
        rw [← List.mem_reverse, hr]; exact List.mem_cons_self a t
      have hne : ¬ (a = '\n') := fun hh => h (hh ▸ ha)
      rw [List.dropWhile_cons_of_neg (by simpa using hne)]
  rw [hd, List.reverse_reverse]

theorem mem_of_mem_pyRstripNl {cs : List Char} {c : Char} (h : c ∈ pyRstripNl cs) :
    c ∈ cs := by
  unfold pyRstripNl at h
  rw [List.mem_reverse] at h
  exact List.mem_reverse.mp ((List.dropWhile_sublist _).subset h)

theorem mem_of_mem_pyStrip {cs : List Char} {c : Char} (h : c ∈ pyStrip cs) : c ∈ cs := by
  unfold pyStrip at h
  rw [List.mem_reverse] at h
  have h2 := (List.dropWhile_sublist (l := (List.dropWhile isPySpace cs).reverse) isPySpace).subset h
  rw [List.mem_reverse] at h2
  exact (List.dropWhile_sublist _).subset h2

theorem mem_dropWhile_of_mem {p : Char → Bool} {cs : List Char} {c : Char}
    (hm : c ∈ cs) (hc : p c = false) : c ∈ cs.dropWhile p := by
  induction cs with
  | nil => cases hm
  | cons a t ih =>
    by_cases ha : p a
    · rw [List.dropWhile_cons_of_pos ha]
      rcases List.mem_cons.mp hm with h | h
      · subst h; rw [ha] at hc; cases hc
      · exact ih h
    · rw [List.dropWhile_cons_of_neg (by simpa using ha)]
      exact hm

theorem mem_pyStrip_of_mem {cs : List Char} {c : Char}
    (hm : c ∈ cs) (hc : isPySpace c = false) : c ∈ pyStrip cs := by
  unfold pyStrip
  rw [List.mem_reverse]
  exact mem_dropWhile_of_mem (List.mem_reverse.mpr (mem_dropWhile_of_mem hm hc)) hc

theorem splitOnChar_ne_nil (sep : Char) (cs : List Char) : splitOnChar sep cs ≠ [] := by
  cases cs with
  | nil => simp [splitOnChar]
  | cons c t =>
    by_cases hc : c = sep
    · simp [splitOnChar, hc]
    · simp only [splitOnChar, hc, if_false]
      cases splitOnChar sep t <;> simp

theorem splitOnChar_not_mem {sep : Char} {a : List Char} (h : sep ∉ a) :
    splitOnChar sep a = [a] := by
  induction a with
  | nil => rfl
  | cons c t ih =>
    have hc : ¬ c = sep := fun hh => h (hh ▸ List.mem_cons_self c t)
    have ht : sep ∉ t := fun hh => h (List.mem_cons_of_mem c hh)
    simp [splitOnChar, hc, ih ht]

theorem splitOnChar_append_sep {sep : Char} {a : List Char} (h : sep ∉ a) (r : List Char) :
    splitOnChar sep (a ++ sep :: r) = a :: splitOnChar sep r := by
  induction a with
  | nil => simp [splitOnChar]
  | cons c t ih =>
    have hc : ¬ c = sep := fun hh => h (hh ▸ List.mem_cons_self c t)
    have ht : sep ∉ t := fun hh => h (List.mem_cons_of_mem c hh)
    simp only [List.cons_append, splitOnChar, hc, if_false, List.append_eq, ih ht]

theorem mem_of_mem_splitOnChar {sep : Char} {cs : List Char} :
    ∀ {p : List Char}, p ∈ splitOnChar sep cs → ∀ {c : Char}, c ∈ p → c ∈ cs := by
  induction cs with
  | nil =>
    intro p hp c hc
    simp only [splitOnChar, List.mem_singleton] at hp
    subst hp; cases hc
  | cons a t ih =>
    intro p hp c hc
    by_cases ha : a = sep
    · simp only [splitOnChar, ha, if_true] at hp
      rcases List.mem_cons.mp hp with h | h
      · subst h; cases hc
      · exact List.mem_cons_of_mem _ (ih h hc)
    · simp only [splitOnChar, ha, if_false] at hp
      cases hsp : splitOnChar sep t with
      | nil => exact absurd hsp (splitOnChar_ne_nil _ _)
      | cons q qs =>
        rw [hsp] at hp
        rcases List.mem_cons.mp hp with h | h
        · subst h
          rcases List.mem_cons.mp hc with h2 | h2
          · subst h2; exact List.mem_cons_self _ t
          · exact List.mem_cons_of_mem _ (ih (hsp ▸ List.mem_cons_self q qs) h2)
        · exact List.mem_cons_of_mem _ (ih (hsp ▸ List.mem_cons_of_mem q h) hc)

/-! ### Digit rendering and Python int lemmas -/

theorem isLineBreak_isPySpace {c : Char} (h : isLineBreak c = true) :
    isPySpace c = true := by
  simp [isPySpace, h]

theorem isDigit_of_isPySpace {c : Char} (h : isPySpace c = true) : c.isDigit = false := by
  simp only [isPySpace, isLineBreak, Bool.or_eq_true, decide_eq_true_eq, or_assoc] at h
  rcases h with h|h|h|h|h|h|h|h|h|h|h|h <;> subst h <;> decide

theorem isPySpace_of_isDigit {c : Char} (h : c.isDigit = true) : isPySpace c = false := by
  by_cases hs : isPySpace c = true
  · rw [isDigit_of_isPySpace hs] at h; cases h
  · exact Bool.not_eq_true _ ▸ (by simpa using hs)

theorem isLineBreak_of_isDigit {c : Char} (h : c.isDigit = true) : isLineBreak c = false := by
  by_cases hb : isLineBreak c = true
  · rw [isDigit_of_isPySpace (isLineBreak_isPySpace hb)] at h; cases h
  · simpa using hb

theorem digitChar_isDigit {n : Nat} (h : n < 10) : (digitChar n).isDigit = true := by
  interval_cases n <;> decide

theorem digitVal_digitChar {n : Nat} (h : n < 10) : digitVal (digitChar n) = n := by
  interval_cases n <;> decide

theorem natCharsAux_ne_nil : ∀ (fuel n : Nat) (acc : List Char),
    fuel ≠ 0 ∨ acc ≠ [] → natCharsAux fuel n acc ≠ []
  | 0, _, acc, h => by
    rcases h with h | h
    · exact absurd rfl h
    · simpa [natCharsAux] using h
  | fuel + 1, n, acc, _ => by
    by_cases h10 : n < 10
    · simp [natCharsAux, h10]
    · simpa [natCharsAux, h10] using
        natCharsAux_ne_nil fuel (n / 10) (digitChar (n % 10) :: acc) (Or.inr (by simp))

theorem natChars_ne_nil (n : Nat) : natChars n ≠ [] :=
  natCharsAux_ne_nil (n + 1) n [] (Or.inl (by simp))

theorem natCharsAux_all_digit : ∀ (fuel n : Nat) (acc : List Char),
    (∀ c ∈ acc, c.isDigit = true) → ∀ c ∈ natCharsAux fuel n acc, c.isDigit = true
  | 0, _, _, hacc => by simpa [natCharsAux] using hacc
  | fuel + 1, n, acc, hacc => by
    by_cases h10 : n < 10
    · simp only [natCharsAux, h10, if_true]
      intro c hc
      rcases List.mem_cons.mp hc with h | h
      · exact h ▸ digitChar_isDigit h10
      · exact hacc c h
    · simp only [natCharsAux, h10, if_false]
      exact natCharsAux_all_digit fuel (n / 10) _ (by
        intro c hc
        rcases List.mem_cons.mp hc with h | h
        · exact h ▸ digitChar_isDigit (Nat.mod_lt _ (by omega))
        · exact hacc c h)

theorem natChars_all_digit (n : Nat) : ∀ c ∈ natChars n, c.isDigit = true :=
  natCharsAux_all_digit (n + 1) n [] (by simp)

theorem pyNatGo_cons (acc : Nat) (c : Char) (rest : List Char) :
    pyNatGo acc (c :: rest) =
      if c.isDigit then pyNatGo (acc * 10 + digitVal c) rest
      else if c = '_' then
        match rest with
        | d :: _ => if d.isDigit then pyNatGo acc rest else none
        | [] => none
      else none := rfl

theorem natCharsAux_succ (fuel n : Nat) (acc : List Char) :
    natCharsAux (fuel + 1) n acc =
      if n < 10 then digitChar n :: acc
      else natCharsAux fuel (n / 10) (digitChar (n % 10) :: acc) := rfl

theorem valD_cons (v : Nat) (c : Char) (r : List Char) :
    valD v (c :: r) = valD (v * 10 + digitVal c) r := rfl

theorem valD_nil (v : Nat) : valD v [] = v := rfl

theorem pyNatGo_all_digit {ds : List Char} (h : ∀ c ∈ ds, c.isDigit = true) :
    ∀ v, pyNatGo v ds = some (valD v ds) := by
  induction ds with
  | nil => intro v; rfl
  | cons c r ih =>
    intro v
    have hc := h c (List.mem_cons_self c r)
    rw [pyNatGo_cons, if_pos hc, valD_cons]
    exact ih (fun d hd => h d (List.mem_cons_of_mem c hd)) _

theorem natCharsAux_val : ∀ (fuel n : Nat), n < 10 ^ (fuel + 1) →
    ∃ k : Nat, ∀ (v : Nat) (acc : List Char),
      valD v (natCharsAux (fuel + 1) n acc) = valD (v * 10 ^ k + n) acc := by
  intro fuel
  induction fuel with
  | zero =>
    intro n hn
    refine ⟨1, fun v acc => ?_⟩
    have h10 : n < 10 := by simpa using hn
    rw [natCharsAux_succ, if_pos h10, valD_cons, digitVal_digitChar h10, pow_one]
  | succ fuel ih =>
    intro n hn
    by_cases h10 : n < 10
    · refine ⟨1, fun v acc => ?_⟩
      rw [natCharsAux_succ, if_pos h10, valD_cons, digitVal_digitChar h10, pow_one]
    · have hdiv : n / 10 < 10 ^ (fuel + 1) := by
        rw [Nat.div_lt_iff_lt_mul (by omega)]
        calc n < 10 ^ (fuel + 1 + 1) := hn
        _ = 10 ^ (fuel + 1) * 10 := by ring
      obtain ⟨k, hk⟩ := ih (n / 10) hdiv
      refine ⟨k + 1, fun v acc => ?_⟩
      rw [natCharsAux_succ, if_neg h10, hk v (digitChar (n % 10) :: acc), valD_cons,
        digitVal_digitChar (Nat.mod_lt _ (by omega))]
      congr 1
      have hdm := Nat.div_add_mod n 10
      calc (v * 10 ^ k + n / 10) * 10 + n % 10
          = v * (10 ^ k * 10) + (10 * (n / 10) + n % 10) := by ring
      _ = v * 10 ^ (k + 1) + n := by rw [Nat.pow_succ]; omega

theorem pyNat_natChars (n : Nat) : pyNatOfChars (natChars n) = some n := by
  have hlt : n < 10 ^ (n + 1) :=
    lt_of_lt_of_le (Nat.lt_pow_self (by norm_num) n)
      (Nat.pow_le_pow_right (by norm_num) (by omega))
  obtain ⟨k, hk⟩ := natCharsAux_val n n hlt
  have hval : valD 0 (natChars n) = n := by
    have h2 := hk 0 []
    rw [valD_nil, Nat.zero_mul, Nat.zero_add] at h2
    exact h2
  cases hnc : natChars n with
  | nil => exact absurd hnc (natChars_ne_nil n)
  | cons d ds =>
    have hdig : ∀ c ∈ d :: ds, c.isDigit = true := hnc ▸ natChars_all_digit n
    have hd : d.isDigit = true := hdig d (List.mem_cons_self d ds)
    have hds : ∀ c ∈ ds, c.isDigit = true := fun c hc => hdig c (List.mem_cons_of_mem d hc)
    simp only [pyNatOfChars, hd, if_true]
    rw [pyNatGo_all_digit hds]
    rw [hnc, valD_cons] at hval
    rw [Nat.zero_mul, Nat.zero_add] at hval
    rw [hval]

theorem dropWhile_eq_self_of_forall_neg {p : Char → Bool} {cs : List Char}
    (h : ∀ c ∈ cs, p c = false) : cs.dropWhile p = cs := by
  cases cs with
  | nil => rfl
  | cons a t =>
    rw [List.dropWhile_cons_of_neg]
    simp [h a (List.mem_cons_self a t)]

theorem pyStrip_of_forall_not_space {cs : List Char}
    (h : ∀ c ∈ cs, isPySpace c = false) : pyStrip cs = cs := by
  unfold pyStrip
  rw [dropWhile_eq_self_of_forall_neg h, dropWhile_eq_self_of_forall_neg
    (fun c hc => h c (List.mem_reverse.mp hc)), List.reverse_reverse]

theorem natChars_not_space (n : Nat) : ∀ c ∈ natChars n, isPySpace c = false :=
  fun c hc => isPySpace_of_isDigit (natChars_all_digit n c hc)

theorem pyIntOfChars_cons_minus {ds : List Char}
    (hds : ∀ c ∈ ds, isPySpace c = false) :
    pyIntOfChars ('-' :: ds) = (pyNatOfChars ds).map (fun n => -(n : Int)) := by
  unfold pyIntOfChars
  rw [pyStrip_of_forall_not_space (by
    intro c hc
    rcases List.mem_cons.mp hc with h | h
    · subst h; decide
    · exact hds c h)]
  rfl

theorem pyIntOfChars_all_digit {ds : List Char} (hne : ds ≠ [])
    (hd : ∀ c ∈ ds, c.isDigit = true) :
    pyIntOfChars ds = (pyNatOfChars ds).map (fun n => (n : Int)) := by
  unfold pyIntOfChars
  rw [pyStrip_of_forall_not_space (fun c hc => isPySpace_of_isDigit (hd c hc))]
  cases ds with
  | nil => exact absurd rfl hne
  | cons d r =>
    have hdd : d.isDigit = true := hd d (List.mem_cons_self d r)
    have hplus : d ≠ '+' := fun h => by rw [h] at hdd; cases hdd
    have hminus : d ≠ '-' := fun h => by rw [h] at hdd; cases hdd
    split
    · next heq => exact absurd (List.head_eq_of_cons_eq heq) hplus
    · next heq => exact absurd (List.head_eq_of_cons_eq heq) hminus
    · rfl

theorem pyInt_natChars (n : Nat) : pyIntOfChars (natChars n) = some (n : Int) := by
  rw [pyIntOfChars_all_digit (natChars_ne_nil n) (natChars_all_digit n), pyNat_natChars]
  rfl

theorem pyInt_intChars (b : Int) : pyIntOfChars (intChars b) = some b := by
  by_cases hb : b < 0
  · unfold intChars
    rw [if_pos hb, pyIntOfChars_cons_minus (natChars_not_space _), pyNat_natChars]
    have hval : -((b.natAbs : Nat) : Int) = b := by omega
    exact congrArg some hval
  · unfold intChars
    rw [if_neg hb, pyInt_natChars]
    congr 1
    omega

/-! ### Splitlines case equations and peeling lemmas -/

theorem splitAux_nil (acc : List Char) :
    splitAux [] acc = if acc = [] then [] else [acc.reverse] := rfl

theorem splitAux_single (c : Char) (acc : List Char) :
    splitAux [c] acc =
      if isLineBreak c then [acc.reverse ++ [c]] else [(c :: acc).reverse] := rfl

theorem splitAux_cons2 (c d : Char) (rest acc : List Char) :
    splitAux (c :: d :: rest) acc =
      if c = '\r' then
        if d = '\n' then (acc.reverse ++ ['\r', '\n']) :: splitAux rest []
        else (acc.reverse ++ ['\r']) :: splitAux (d :: rest) []
      else if isLineBreak c then (acc.reverse ++ [c]) :: splitAux (d :: rest) []
      else splitAux (d :: rest) (c :: acc) := rfl

theorem cleanBody_mem {cs : List Char} (h : cleanBody cs = true) {c : Char}
    (hc : c ∈ cs) : isLineBreak c = false := by
  simpa using List.all_eq_true.mp h c hc

theorem cleanBody_of_forall {cs : List Char}
    (h : ∀ c ∈ cs, isLineBreak c = false) : cleanBody cs = true :=
  List.all_eq_true.mpr fun c hc => by simp [h c hc]

theorem cleanBody_reverse (cs : List Char) : cleanBody cs.reverse = cleanBody cs := by
  simp [cleanBody]

theorem cleanBody_append (a b : List Char) :
    cleanBody (a ++ b) = (cleanBody a && cleanBody b) := by
  simp [cleanBody]

theorem cleanBody_cons (c : Char) (cs : List Char) :
    cleanBody (c :: cs) = (!isLineBreak c && cleanBody cs) := by
  simp [cleanBody]

theorem ne_cr_of_clean {c : Char} (h : isLineBreak c = false) : c ≠ '\r' := by
  intro hc; subst hc; cases h

theorem ne_nl_of_clean {c : Char} (h : isLineBreak c = false) : c ≠ '\n' := by
  intro hc; subst hc; cases h

theorem splitAux_clean_peel {body : List Char} (h : cleanBody body = true) :
    ∀ (rest acc : List Char), rest ≠ [] →
      splitAux (body ++ rest) acc = splitAux rest (body.reverse ++ acc) := by
  induction body with
  | nil => intro rest acc _; simp
  | cons b body ih =>
    intro rest acc hrest
    have hb : isLineBreak b = false := cleanBody_mem h (List.mem_cons_self b body)
    have hbody : cleanBody body = true := by
      simp only [cleanBody_cons, Bool.and_eq_true] at h
      exact h.2
    cases hbr : body ++ rest with
    | nil => exact absurd (List.append_eq_nil.mp hbr).2 hrest
    | cons d r3 =>
      rw [List.cons_append, hbr, splitAux_cons2, if_neg (ne_cr_of_clean hb),
        if_neg (by simp [hb]), ← hbr, ih hbody rest (b :: acc) hrest]
      simp

theorem splitAux_clean_end {body : List Char} (h : cleanBody body = true)
    (hne : body ≠ []) : ∀ acc, splitAux body acc = [acc.reverse ++ body] := by
  induction body with
  | nil => exact absurd rfl hne
  | cons b body ih =>
    intro acc
    have hb : isLineBreak b = false := cleanBody_mem h (List.mem_cons_self b body)
    have hbody : cleanBody body = true := by
      simp only [cleanBody_cons, Bool.and_eq_true] at h
      exact h.2
    cases body with
    | nil => simp [splitAux_single, hb]
    | cons b2 body3 =>
      rw [splitAux_cons2, if_neg (ne_cr_of_clean hb), if_neg (by simp [hb]),
        ih hbody (by simp) (b :: acc)]
      simp

theorem splitAux_nl_peel {body : List Char} (h : cleanBody body = true)
    (rest acc : List Char) :
    splitAux (body ++ '\n' :: rest) acc =
      (acc.reverse ++ body ++ ['\n']) :: splitAux rest [] := by
  rw [splitAux_clean_peel h ('\n' :: rest) acc (by simp)]
  cases rest with
  | nil =>
    rw [splitAux_single, if_pos (by decide), splitAux_nil, if_pos rfl]
    simp
  | cons r1 rs =>
    rw [splitAux_cons2, if_neg (by decide), if_pos (by decide)]
    simp

theorem splitAux_crnl_peel {body : List Char} (h : cleanBody body = true)
    (rest acc : List Char) :
    splitAux (body ++ '\r' :: '\n' :: rest) acc =
      (acc.reverse ++ body ++ ['\r', '\n']) :: splitAux rest [] := by
  rw [splitAux_clean_peel h ('\r' :: '\n' :: rest) acc (by simp)]
  rw [splitAux_cons2, if_pos rfl, if_pos rfl]
  simp

/-! ### Join and shape of split lines -/

theorem joinL_nil : joinL [] = [] := rfl

theorem joinL_cons (l : List Char) (L : List (List Char)) :
    joinL (l :: L) = l ++ joinL L := rfl

theorem nlShaped_nil : nlShaped [] = true := rfl

theorem nlShaped_single (l : List Char) :
    nlShaped [l] = (isNlLine l || bareLine l) := rfl

theorem nlShaped_cons2 (l l2 : List Char) (L : List (List Char)) :
    nlShaped (l :: l2 :: L) = (isNlLine l && nlShaped (l2 :: L)) := rfl

theorem textOk_single (c : Char) : textOk [c] = (!isLineBreak c || c = '\n') := rfl

theorem textOk_cons2 (c d : Char) (rest : List Char) :
    textOk (c :: d :: rest) =
      if c = '\r' then decide (d = '\n') && textOk rest
      else (!isLineBreak c || c = '\n') && textOk (d :: rest) := rfl

theorem nlShaped_cons_of {l : List Char} {L : List (List Char)}
    (h1 : isNlLine l = true) (h2 : nlShaped L = true) :
    nlShaped (l :: L) = true := by
  cases L with
  | nil => simp [nlShaped_single, h1]
  | cons l2 rest => simp [nlShaped_cons2, h1, h2]

theorem getLast?_ne_cr_of_clean {body : List Char} (h : cleanBody body = true) :
    body.getLast? ≠ some '\r' := by
  intro hl
  exact absurd (cleanBody_mem h (List.mem_of_getLast?_eq_some hl)) (by decide)

theorem isNlLine_append_nl {body : List Char} (h : cleanBody body = true) :
    isNlLine (body ++ ['\n']) = true := by
  unfold isNlLine
  rw [List.getLast?_concat, List.dropLast_concat, if_neg (getLast?_ne_cr_of_clean h)]
  simp [h]

theorem isNlLine_append_crnl {body : List Char} (h : cleanBody body = true) :
    isNlLine (body ++ ['\r', '\n']) = true := by
  unfold isNlLine
  have h2 : body ++ ['\r', '\n'] = (body ++ ['\r']) ++ ['\n'] := by simp
  rw [h2, List.getLast?_concat, List.dropLast_concat, List.getLast?_concat,
    if_pos rfl, List.dropLast_concat]
  simp [h]

theorem joinL_splitAux_bounded : ∀ (n : Nat) (cs acc : List Char), cs.length ≤ n →
    joinL (splitAux cs acc) = acc.reverse ++ cs := by
  intro n
  induction n with
  | zero =>
    intro cs acc hlen
    have hnil : cs = [] := List.length_eq_zero.mp (Nat.le_zero.mp hlen)
    subst hnil
    rw [splitAux_nil]
    by_cases h : acc = [] <;> simp [h, joinL]
  | succ n ih =>
    intro cs acc hlen
    rcases cs with _ | ⟨c, _ | ⟨d, rest⟩⟩
    · rw [splitAux_nil]
      by_cases h : acc = [] <;> simp [h, joinL]
    · rw [splitAux_single]
      by_cases h : isLineBreak c <;> simp [h, joinL]
    · rw [splitAux_cons2]
      have hlen2 : rest.length ≤ n := by simp at hlen; omega
      have hlen1 : (d :: rest).length ≤ n := by simp at hlen ⊢; omega
      by_cases hc : c = '\r'
      · rw [if_pos hc]
        by_cases hd : d = '\n'
        · rw [if_pos hd, joinL_cons, ih rest [] hlen2]
          subst hc hd; simp
        · rw [if_neg hd, joinL_cons, ih (d :: rest) [] hlen1]
          subst hc; simp
      · rw [if_neg hc]
        by_cases hb : isLineBreak c
        · rw [if_pos hb, joinL_cons, ih (d :: rest) [] hlen1]
          simp
        · rw [if_neg hb, ih (d :: rest) (c :: acc) hlen1]
          simp
theorem joinL_splitAux (cs acc : List Char) :
    joinL (splitAux cs acc) = acc.reverse ++ cs :=
  joinL_splitAux_bounded cs.length cs acc (Nat.le_refl _)

theorem joinL_splitlinesKeep (cs : List Char) : joinL (splitlinesKeep cs) = cs := by
  have := joinL_splitAux cs []
  simpa [splitlinesKeep] using this

theorem break_eq_nl_of_textOk {c : Char} (h : (!isLineBreak c || c = '\n') = true)
    (hb : isLineBreak c = true) : c = '\n' := by
  rcases Bool.or_eq_true_iff.mp h with h1 | h1
  · rw [hb] at h1; cases h1
  · simpa using h1

theorem nlShaped_splitAux_bounded : ∀ (n : Nat) (cs acc : List Char), cs.length ≤ n →
    textOk cs = true → cleanBody acc = true → nlShaped (splitAux cs acc) = true := by
  intro n
  induction n with
  | zero =>
    intro cs acc hlen _ hacc
    have hnil : cs = [] := List.length_eq_zero.mp (Nat.le_zero.mp hlen)
    subst hnil
    rw [splitAux_nil]
    by_cases h : acc = []
    · rw [if_pos h]; rfl
    · rw [if_neg h, nlShaped_single]
      have : bareLine acc.reverse = true := by
        simp [bareLine, h, cleanBody_reverse, hacc]
      simp [this]
  | succ n ih =>
    intro cs acc hlen htext hacc
    rcases cs with _ | ⟨c, _ | ⟨d, rest⟩⟩
    · rw [splitAux_nil]
      by_cases h : acc = []
      · rw [if_pos h]; rfl
      · rw [if_neg h, nlShaped_single]
        have : bareLine acc.reverse = true := by
          simp [bareLine, h, cleanBody_reverse, hacc]
        simp [this]
    · rw [splitAux_single]
      rw [textOk_single] at htext
      by_cases hb : isLineBreak c
      · rw [if_pos hb, nlShaped_single]
        have hc : c = '\n' := break_eq_nl_of_textOk htext hb
        subst hc
        simp [isNlLine_append_nl (cleanBody_reverse acc ▸ hacc)]
      · rw [if_neg hb, nlShaped_single]
        have hclean : cleanBody (c :: acc) = true := by
          rw [cleanBody_cons, hacc]
          simp [hb]
        have hbare : bareLine (c :: acc).reverse = true := by
          rw [bareLine, cleanBody_reverse, hclean]
          simp
        rw [List.reverse_cons] at hbare
        simp [hbare]
    · rw [splitAux_cons2]
      rw [textOk_cons2] at htext
      have hlen2 : rest.length ≤ n := by simp at hlen; omega
      have hlen1 : (d :: rest).length ≤ n := by simp at hlen ⊢; omega
      by_cases hc : c = '\r'
      · rw [if_pos hc] at htext ⊢
        rcases Bool.and_eq_true_iff.mp htext with ⟨hd, hrest⟩
        rw [if_pos (by simpa using hd)]
        refine nlShaped_cons_of ?_ (ih rest [] hlen2 hrest rfl)
        exact isNlLine_append_crnl (cleanBody_reverse acc ▸ hacc)
      · rw [if_neg hc] at htext ⊢
        rcases Bool.and_eq_true_iff.mp htext with ⟨hhead, hrest⟩
        by_cases hb : isLineBreak c
        · rw [if_pos hb]
          have hcnl : c = '\n' := break_eq_nl_of_textOk hhead hb
          subst hcnl
          refine nlShaped_cons_of ?_ (ih (d :: rest) [] hlen1 hrest rfl)
          exact isNlLine_append_nl (cleanBody_reverse acc ▸ hacc)
        · rw [if_neg hb]
          refine ih (d :: rest) (c :: acc) hlen1 hrest ?_
          rw [cleanBody_cons, hacc]
          simp [hb]

theorem nlShaped_splitlinesKeep {cs : List Char} (h : textOk cs = true) :
    nlShaped (splitlinesKeep cs) = true :=
  nlShaped_splitAux_bounded cs.length cs [] (Nat.le_refl _) h rfl

/-! ### Structure of newline-terminated lines and line lists -/

theorem isNlLine_elim {l : List Char} (h : isNlLine l = true) :
    ∃ body t, cleanBody body = true ∧ (t = ['\n'] ∨ t = ['\r', '\n']) ∧ l = body ++ t := by
  unfold isNlLine at h
  rcases Bool.and_eq_true_iff.mp h with ⟨hlast, hcond⟩
  have hlast2 : l.getLast? = some '\n' := of_decide_eq_true hlast
  have hne : l ≠ [] := by intro hh; rw [hh] at hlast2; cases hlast2
  have hgl : l.getLast hne = '\n' := by
    have := List.getLast?_eq_getLast l hne
    rw [this] at hlast2
    exact Option.some.inj hlast2
  have hl : l.dropLast ++ ['\n'] = l := by
    rw [← hgl]
    exact List.dropLast_concat_getLast hne
  by_cases hcr : l.dropLast.getLast? = some '\r'
  · rw [if_pos hcr] at hcond
    have hm : l.dropLast ≠ [] := by intro hh; rw [hh] at hcr; cases hcr
    have hgl2 : l.dropLast.getLast hm = '\r' := by
      have := List.getLast?_eq_getLast l.dropLast hm
      rw [this] at hcr
      exact Option.some.inj hcr
    have hl2 : l.dropLast.dropLast ++ ['\r'] = l.dropLast := by
      rw [← hgl2]
      exact List.dropLast_concat_getLast hm
    refine ⟨l.dropLast.dropLast, ['\r', '\n'], hcond, Or.inr rfl, ?_⟩
    rw [← hl, ← hl2]
    simp
  · rw [if_neg hcr] at hcond
    exact ⟨l.dropLast, ['\n'], hcond, Or.inl rfl, hl.symm⟩

theorem isNlLine_ne_nil {l : List Char} (h : isNlLine l = true) : l ≠ [] := by
  rcases isNlLine_elim h with ⟨body, t, _, ht, hl⟩
  rcases ht with ht | ht <;> subst ht <;> subst hl <;> simp

theorem isNlLine_getLast {l : List Char} (h : isNlLine l = true) :
    l.getLast? = some '\n' := by
  unfold isNlLine at h
  exact of_decide_eq_true (Bool.and_eq_true_iff.mp h).1

theorem not_bare_of_isNl {l : List Char} (h : isNlLine l = true) : bareLine l = false := by
  have hmem : '\n' ∈ l := List.mem_of_getLast?_eq_some (isNlLine_getLast h)
  by_cases hb : bareLine l = true
  · have := cleanBody_mem (Bool.and_eq_true_iff.mp hb).2 hmem
    cases this
  · simpa using hb

theorem bareLine_getLast {l : List Char} (h : bareLine l = true) :
    l.getLast? ≠ some '\n' := by
  intro hl
  have hmem : '\n' ∈ l := List.mem_of_getLast?_eq_some hl
  have := cleanBody_mem (Bool.and_eq_true_iff.mp h).2 hmem
  cases this

theorem nlShaped_tail {l : List Char} {L : List (List Char)}
    (h : nlShaped (l :: L) = true) : nlShaped L = true := by
  cases L with
  | nil => rfl
  | cons l2 rest =>
    rw [nlShaped_cons2] at h
    exact (Bool.and_eq_true_iff.mp h).2

theorem nlShaped_head_cases {l : List Char} {L : List (List Char)}
    (h : nlShaped (l :: L) = true) :
    isNlLine l = true ∨ (bareLine l = true ∧ L = []) := by
  cases L with
  | nil =>
    rw [nlShaped_single] at h
    rcases Bool.or_eq_true_iff.mp h with h1 | h1
    · exact Or.inl h1
    · exact Or.inr ⟨h1, rfl⟩
  | cons l2 rest =>
    rw [nlShaped_cons2] at h
    exact Or.inl (Bool.and_eq_true_iff.mp h).1

theorem nlShaped_sublist {L1 L2 : List (List Char)} (hs : L1.Sublist L2)
    (h : nlShaped L2 = true) : nlShaped L1 = true := by
  induction hs with
  | slnil => rfl
  | cons a hsub ih => exact ih (nlShaped_tail h)
  | cons₂ a hsub ih =>
    rcases nlShaped_head_cases h with h1 | ⟨h1, h2⟩
    · exact nlShaped_cons_of h1 (ih (nlShaped_tail h))
    · subst h2
      have : _ = ([] : List (List Char)) := List.sublist_nil.mp (by assumption)
      rw [this, nlShaped_single, h1]
      simp
  
theorem nlShaped_append {A B : List (List Char)}
    (hA : ∀ l ∈ A, isNlLine l = true) (hB : nlShaped B = true) :
    nlShaped (A ++ B) = true := by
  induction A with
  | nil => simpa using hB
  | cons a A ih =>
    rw [List.cons_append]
    exact nlShaped_cons_of (hA a (List.mem_cons_self a A))
      (ih (fun l hl => hA l (List.mem_cons_of_mem a hl)))

theorem nlShaped_cases {L : List (List Char)} (h : nlShaped L = true) :
    (∀ l ∈ L, isNlLine l = true) ∨
      (∃ A lb, L = A ++ [lb] ∧ (∀ l ∈ A, isNlLine l = true) ∧
        bareLine lb = true ∧ isNlLine lb = false) := by
  induction L with
  | nil => exact Or.inl (by simp)
  | cons l rest ih =>
    rcases nlShaped_head_cases h with h1 | ⟨h1, h2⟩
    · rcases ih (nlShaped_tail h) with h2 | ⟨A, lb, hA1, hA2, hA3, hA4⟩
      · refine Or.inl ?_
        intro x hx
        rcases List.mem_cons.mp hx with hx | hx
        · exact hx ▸ h1
        · exact h2 x hx
      · refine Or.inr ⟨l :: A, lb, by rw [hA1, List.cons_append], ?_, hA3, hA4⟩
        intro x hx
        rcases List.mem_cons.mp hx with hx | hx
        · exact hx ▸ h1
        · exact hA2 x hx
    · subst h2
      by_cases hnl : isNlLine l = true
      · exact Or.inl (by simpa using hnl)
      · exact Or.inr ⟨[], l, by simp, by simp, h1, by simpa using hnl⟩

/-! ### okLines and decoding through a split -/

theorem okLines_nil : okLines [] = true := rfl

theorem okLines_single (l : List Char) :
    okLines [l] = (isNlLine l || bareLine l) := rfl

theorem okLines_cons2 (l l2 : List Char) (L : List (List Char)) :
    okLines (l :: l2 :: L) =
      if isNlLine l then okLines (l2 :: L)
      else bareLine l && decide (l2 = ['\n']) && (l2 :: L).all isNlLine := rfl

theorem okLines_of_nlShaped {L : List (List Char)} (h : nlShaped L = true) :
    okLines L = true := by
  induction L with
  | nil => rfl
  | cons l rest ih =>
    cases rest with
    | nil => rw [okLines_single, ← nlShaped_single]; exact h
    | cons l2 rest2 =>
      rw [nlShaped_cons2, Bool.and_eq_true_iff] at h
      rw [okLines_cons2, if_pos h.1]
      exact ih h.2

theorem okLines_cons_isNl {l : List Char} {L : List (List Char)}
    (h1 : isNlLine l = true) (h2 : okLines L = true) : okLines (l :: L) = true := by
  cases L with
  | nil => simp [okLines_single, h1]
  | cons l2 rest => rw [okLines_cons2, if_pos h1]; exact h2

theorem okLines_tail_of_isNl {l : List Char} {L : List (List Char)}
    (h : okLines (l :: L) = true) (h1 : isNlLine l = true) : okLines L = true := by
  cases L with
  | nil => rfl
  | cons l2 rest =>
    rw [okLines_cons2, if_pos h1] at h
    exact h

theorem decodeLine_append_nl (l : List Char) :
    decodeLine (l ++ ['\n']) = decodeLine l := by
  unfold decodeLine
  rw [pyRstripNl_append_nl]

theorem decodeLine_nl_line : decodeLine ['\n'] = none := by decide

theorem splitlinesKeep_isNl_peel {l : List Char} (h : isNlLine l = true)
    (rest : List Char) :
    splitlinesKeep (l ++ rest) = l :: splitAux rest [] := by
  rcases isNlLine_elim h with ⟨body, t, hclean, ht, hl⟩
  rcases ht with ht | ht
  · subst ht hl
    unfold splitlinesKeep
    have : (body ++ ['\n']) ++ rest = body ++ '\n' :: rest := by simp
    rw [this, splitAux_nl_peel hclean rest []]
    simp
  · subst ht hl
    unfold splitlinesKeep
    have : (body ++ ['\r', '\n']) ++ rest = body ++ '\r' :: '\n' :: rest := by simp
    rw [this, splitAux_crnl_peel hclean rest []]
    simp

theorem splitlinesKeep_allNl {L : List (List Char)}
    (h : ∀ l ∈ L, isNlLine l = true) : splitlinesKeep (joinL L) = L := by
  induction L with
  | nil => rfl
  | cons l rest ih =>
    rw [joinL_cons, splitlinesKeep_isNl_peel (h l (List.mem_cons_self l rest))]
    have := ih (fun x hx => h x (List.mem_cons_of_mem l hx))
    unfold splitlinesKeep at this
    rw [this]

theorem filterMap_decode_split_ok {L : List (List Char)} (h : okLines L = true) :
    (splitlinesKeep (joinL L)).filterMap decodeLine = L.filterMap decodeLine := by
  induction L with
  | nil => rfl
  | cons l rest ih =>
    by_cases hnl : isNlLine l = true
    · rw [joinL_cons, splitlinesKeep_isNl_peel hnl]
      have htail := ih (okLines_tail_of_isNl h hnl)
      unfold splitlinesKeep at htail
      rw [List.filterMap_cons, List.filterMap_cons]
      cases hd : decodeLine l <;> rw [htail]
    · cases rest with
      | nil =>
        rw [okLines_single] at h
        rcases Bool.or_eq_true_iff.mp h with h1 | h1
        · exact absurd h1 hnl
        · rcases Bool.and_eq_true_iff.mp h1 with ⟨hne, hclean⟩
          have hne2 : l ≠ [] := of_decide_eq_true hne
          rw [joinL_cons, joinL_nil, List.append_nil]
          unfold splitlinesKeep
          rw [splitAux_clean_end hclean hne2 []]
          simp
      | cons l2 rest2 =>
        rw [okLines_cons2, if_neg hnl] at h
        rcases Bool.and_eq_true_iff.mp h with ⟨h12, hall⟩
        rcases Bool.and_eq_true_iff.mp h12 with ⟨hbare, hl2⟩
        have hl2e : l2 = ['\n'] := of_decide_eq_true hl2
        subst hl2e
        have hclean : cleanBody l = true := (Bool.and_eq_true_iff.mp hbare).2
        have hrest2 : ∀ x ∈ rest2, isNlLine x = true := by
          intro x hx
          exact List.all_eq_true.mp hall x (List.mem_cons_of_mem _ hx)
        rw [joinL_cons, joinL_cons]
        have hform : l ++ (['\n'] ++ joinL rest2) = (l ++ ['\n']) ++ joinL rest2 := by
          simp
        rw [hform, splitlinesKeep_isNl_peel (isNlLine_append_nl hclean)]
        have hsplit := splitlinesKeep_allNl hrest2
        unfold splitlinesKeep at hsplit
        rw [hsplit]
        simp [List.filterMap_cons, decodeLine_append_nl, decodeLine_nl_line]

/-! ### Station indexes and deletion of station lines -/

theorem keepNonIdxs_nil {α : Type} (idxs : List Nat) (pos : Nat) :
    keepNonIdxs (α := α) idxs pos [] = [] := rfl

theorem keepNonIdxs_cons {α : Type} (idxs : List Nat) (pos : Nat) (a : α) (rest : List α) :
    keepNonIdxs idxs pos (a :: rest) =
      if pos ∈ idxs then keepNonIdxs idxs (pos + 1) rest
      else a :: keepNonIdxs idxs (pos + 1) rest := rfl

theorem keepNonIdxs_congr {α : Type} {S1 S2 : List Nat} :
    ∀ (l : List α) (pos : Nat), (∀ p, pos ≤ p → (p ∈ S1 ↔ p ∈ S2)) →
      keepNonIdxs S1 pos l = keepNonIdxs S2 pos l := by
  intro l
  induction l with
  | nil => intro pos _; rfl
  | cons a rest ih =>
    intro pos hmem
    rw [keepNonIdxs_cons, keepNonIdxs_cons]
    have hnext : ∀ p, pos + 1 ≤ p → (p ∈ S1 ↔ p ∈ S2) := fun p hp => hmem p (by omega)
    by_cases hp : pos ∈ S1
    · rw [if_pos hp, if_pos ((hmem pos (Nat.le_refl pos)).mp hp), ih (pos + 1) hnext]
    · rw [if_neg hp, if_neg (fun hq => hp ((hmem pos (Nat.le_refl pos)).mpr hq)),
        ih (pos + 1) hnext]

theorem keepNonIdxs_all_lt {α : Type} {S : List Nat} :
    ∀ (l : List α) (pos : Nat), (∀ i ∈ S, i < pos) → keepNonIdxs S pos l = l := by
  intro l
  induction l with
  | nil => intro pos _; rfl
  | cons a rest ih =>
    intro pos hlt
    rw [keepNonIdxs_cons, if_neg (fun hq => by have := hlt pos hq; omega),
      ih (pos + 1) (fun i hi => by have := hlt i hi; omega)]

theorem keepNonIdxs_nil_idxs {α : Type} : ∀ (l : List α) (pos : Nat),
    keepNonIdxs [] pos l = l :=
  fun l pos => keepNonIdxs_all_lt l pos (by simp)

theorem stationIdxsFrom_cons (pos : Nat) (a : List Char) (tl : List (List Char)) :
    stationIdxsFrom pos (a :: tl) =
      if (decodeLine a).isSome then pos :: stationIdxsFrom (pos + 1) tl
      else stationIdxsFrom (pos + 1) tl := rfl

theorem stationIdxsFrom_mem_ge {x : Nat} : ∀ {l : List (List Char)} {pos : Nat},
    x ∈ stationIdxsFrom pos l → pos ≤ x := by
  intro l
  induction l with
  | nil => intro pos h; cases h
  | cons a tl ih =>
    intro pos h
    rw [stationIdxsFrom_cons] at h
    by_cases hd : (decodeLine a).isSome
    · rw [if_pos hd] at h
      rcases List.mem_cons.mp h with h | h
      · omega
      · have := ih h; omega
    · rw [if_neg hd] at h
      have := ih h; omega

theorem stationIdxsFrom_mem_lt {x : Nat} : ∀ {l : List (List Char)} {pos : Nat},
    x ∈ stationIdxsFrom pos l → x < pos + l.length := by
  intro l
  induction l with
  | nil => intro pos h; cases h
  | cons a tl ih =>
    intro pos h
    rw [stationIdxsFrom_cons] at h
    by_cases hd : (decodeLine a).isSome
    · rw [if_pos hd] at h
      rcases List.mem_cons.mp h with h | h
      · simp [h]
      · have := ih h; simp; omega
    · rw [if_neg hd] at h
      have := ih h; simp; omega

theorem stationIdxsFrom_pairwise : ∀ (l : List (List Char)) (pos : Nat),
    List.Pairwise (· < ·) (stationIdxsFrom pos l) := by
  intro l
  induction l with
  | nil => intro pos; exact List.Pairwise.nil
  | cons a tl ih =>
    intro pos
    rw [stationIdxsFrom_cons]
    by_cases hd : (decodeLine a).isSome
    · rw [if_pos hd]
      exact List.pairwise_cons.mpr
        ⟨fun y hy => by have := stationIdxsFrom_mem_ge hy; omega, ih (pos + 1)⟩
    · rw [if_neg hd]
      exact ih (pos + 1)

theorem keep_stationIdxs_eq_filter : ∀ (l : List (List Char)) (pos : Nat),
    keepNonIdxs (stationIdxsFrom pos l) pos l =
      l.filter (fun x => (decodeLine x).isNone) := by
  intro l
  induction l with
  | nil => intro pos; rfl
  | cons a tl ih =>
    intro pos
    rw [stationIdxsFrom_cons]
    by_cases hd : (decodeLine a).isSome
    · rw [if_pos hd, keepNonIdxs_cons, if_pos (List.mem_cons_self _ _)]
      have hcong : keepNonIdxs (pos :: stationIdxsFrom (pos + 1) tl) (pos + 1) tl =
          keepNonIdxs (stationIdxsFrom (pos + 1) tl) (pos + 1) tl := by
        refine keepNonIdxs_congr tl (pos + 1) (fun p hp => ?_)
        rw [List.mem_cons]
        constructor
        · intro h
          rcases h with h | h
          · omega
          · exact h
        · exact Or.inr
      rw [hcong, ih (pos + 1), List.filter_cons]
      have : (decodeLine a).isNone = false := by
        rcases Option.isSome_iff_exists.mp hd with ⟨v, hv⟩
        simp [hv]
      rw [this]
      simp
    · rw [if_neg hd, keepNonIdxs_cons,
        if_neg (fun hq => by have := stationIdxsFrom_mem_ge hq; omega),
        ih (pos + 1), List.filter_cons]
      have : (decodeLine a).isNone = true := by
        cases hv : decodeLine a
        · rfl
        · rw [hv] at hd; simp at hd
      rw [this]
      simp

theorem stationIdxsFrom_last_not_mem {lb : List Char} :
    ∀ (l : List (List Char)) (pos : Nat), l.getLast? = some lb → decodeLine lb = none →
      (pos + l.length - 1) ∉ stationIdxsFrom pos l := by
  intro l
  induction l with
  | nil => intro pos h _; cases h
  | cons a tl ih =>
    intro pos hlast hdec
    cases tl with
    | nil =>
      have ha : a = lb := by
        rw [List.getLast?_singleton] at hlast
        exact Option.some.inj hlast
      subst ha
      rw [stationIdxsFrom_cons, if_neg (by simp [hdec])]
      simp [stationIdxsFrom]
    | cons b tl2 =>
      have hlast2 : (b :: tl2).getLast? = some lb := by
        rw [List.getLast?_cons_cons] at hlast
        exact hlast
      have hih := ih (pos + 1) hlast2 hdec
      have hlen : pos + (a :: b :: tl2).length - 1 = (pos + 1) + (b :: tl2).length - 1 := by
        simp; omega
      rw [hlen, stationIdxsFrom_cons]
      by_cases hd : (decodeLine a).isSome
      · rw [if_pos hd]
        intro hm
        rcases List.mem_cons.mp hm with hm | hm
        · simp at hm; omega
        · exact hih hm
      · rw [if_neg hd]
        exact hih

theorem stationIdxsFrom_length : ∀ (l : List (List Char)) (pos : Nat),
    (stationIdxsFrom pos l).length = l.countP (fun x => (decodeLine x).isSome) := by
  intro l
  induction l with
  | nil => intro pos; rfl
  | cons a tl ih =>
    intro pos
    rw [stationIdxsFrom_cons, List.countP_cons]
    by_cases hd : (decodeLine a).isSome
    · rw [if_pos hd]
      simp [hd, ih (pos + 1)]
    · rw [if_neg hd]
      simp [hd, ih (pos + 1)]

theorem stationIdxsFrom_eq_nil_iff (l : List (List Char)) (pos : Nat) :
    stationIdxsFrom pos l = [] ↔ ∀ x ∈ l, decodeLine x = none := by
  induction l generalizing pos with
  | nil => simp [stationIdxsFrom]
  | cons a tl ih =>
    rw [stationIdxsFrom_cons]
    by_cases hd : (decodeLine a).isSome
    · rw [if_pos hd]
      simp only [List.mem_cons]
      constructor
      · intro h; cases h
      · intro h
        have := h a (Or.inl rfl)
        rw [this] at hd
        cases hd
    · rw [if_neg hd]
      rw [ih]
      constructor
      · intro h x hx
        rcases List.mem_cons.mp hx with hx | hx
        · subst hx
          cases hv : decodeLine x
          · rfl
          · rw [hv] at hd; simp at hd
        · exact h x hx
      · intro h x hx
        exact h x (List.mem_cons_of_mem a hx)

theorem pairwise_lt_head_bound : ∀ {idxs : List Nat}, List.Pairwise (· < ·) idxs →
    ∀ {B : Nat}, (∀ x ∈ idxs, x ≤ B) → idxs ≠ [] →
      idxs.headD 0 + idxs.length ≤ B + 1 := by
  intro idxs
  induction idxs with
  | nil => intro _ B _ hne; exact absurd rfl hne
  | cons i rest ih =>
    intro hs B hb _
    rcases List.pairwise_cons.mp hs with ⟨hi, hrest⟩
    cases rest with
    | nil =>
      have := hb i (List.mem_cons_self i [])
      simp
      omega
    | cons j rest2 =>
      have hj : j ∈ j :: rest2 := List.mem_cons_self j rest2
      have hij : i < j := hi j hj
      have := ih hrest (fun x hx => hb x (List.mem_cons_of_mem i hx)) (by simp)
      simp only [List.headD_cons] at this ⊢
      simp at this ⊢
      omega

theorem keep_erase_shift {α : Type} {rest : List Nat} {j : Nat}
    (hrest : ∀ r ∈ rest, r < j) :
    ∀ (l : List α) (pos : Nat), pos ≤ j → j - pos < l.length →
      keepNonIdxs rest pos (l.eraseIdx (j - pos)) = keepNonIdxs (rest ++ [j]) pos l := by
  intro l
  induction l with
  | nil => intro pos _ hlen; simp at hlen
  | cons a tl ih =>
    intro pos hpos hlen
    by_cases hpj : pos = j
    · have h0 : j - pos = 0 := by omega
      rw [h0, List.eraseIdx_cons_zero, keepNonIdxs_cons,
        if_pos (by rw [List.mem_append]; right; simp [hpj])]
      rw [keepNonIdxs_all_lt tl pos (fun i hi => by have := hrest i hi; omega),
        keepNonIdxs_all_lt tl (pos + 1) ?_]
      intro i hi
      rcases List.mem_append.mp hi with hi | hi
      · have := hrest i hi; omega
      · simp at hi; omega
    · have hsucc : j - pos = (j - (pos + 1)) + 1 := by omega
      rw [hsucc, List.eraseIdx_cons_succ, keepNonIdxs_cons, keepNonIdxs_cons]
      have hmem : (pos ∈ rest ++ [j]) ↔ pos ∈ rest := by
        rw [List.mem_append]
        constructor
        · intro h
          rcases h with h | h
          · exact h
          · simp at h; omega
        · exact Or.inl
      have hih := ih (pos + 1) (by omega) (by simp at hlen ⊢; omega)
      by_cases hp : pos ∈ rest
      · rw [if_pos hp, if_pos (hmem.mpr hp)]
        exact hih
      · rw [if_neg hp, if_neg (fun hq => hp (hmem.mp hq))]
        rw [hih]

theorem foldr_erase_eq_keep {α : Type} : ∀ {idxs : List Nat},
    List.Pairwise (· < ·) idxs → ∀ (l : List α), (∀ i ∈ idxs, i < l.length) →
      idxs.foldr (fun i acc => acc.eraseIdx i) l = keepNonIdxs idxs 0 l := by
  intro idxs
  induction idxs using List.reverseRecOn with
  | nil => intro _ l _; rw [keepNonIdxs_nil_idxs]; rfl
  | append_singleton rest j ih =>
    intro hs l hb
    rw [List.foldr_append]
    rcases List.pairwise_append.mp hs with ⟨hr, _, hcross⟩
    have hrj : ∀ r ∈ rest, r < j := fun r hrm => hcross r hrm j (by simp)
    have hj : j < l.length := hb j (by simp)
    have hfold : List.foldr (fun i acc => acc.eraseIdx i) l [j] = l.eraseIdx j := rfl
    rw [hfold, ih hr (l.eraseIdx j) (fun i hi => by
      have h1 := hrj i hi
      rw [List.length_eraseIdx_of_lt hj]
      omega)]
    have := keep_erase_shift hrj l 0 (by omega) (by simpa using hj)
    simpa using this

theorem removeStations_eq_keep {lines : List (List Char)} {idxs : List Nat}
    (hsort : List.Pairwise (· < ·) idxs) (hb : ∀ i ∈ idxs, i < lines.length) :
    removeStations lines (List.insertionSort (· ≤ ·) idxs) = keepNonIdxs idxs 0 lines := by
  unfold removeStations
  rw [List.Sorted.insertionSort_eq (hsort.imp le_of_lt), List.foldl_reverse]
  exact foldr_erase_eq_keep hsort lines hb

/-! ### Codec lemmas: the two matchers -/

theorem takeWhile_all_append {p : Char → Bool} {a : List Char}
    (ha : ∀ c ∈ a, p c = true) (b : List Char) :
    (a ++ b).takeWhile p = a ++ b.takeWhile p := by
  induction a with
  | nil => simp
  | cons c t ih =>
    rw [List.cons_append, List.takeWhile_cons_of_pos (ha c (List.mem_cons_self c t)),
      ih (fun x hx => ha x (List.mem_cons_of_mem c hx)), List.cons_append]

theorem dropWhile_all_append {p : Char → Bool} {a : List Char}
    (ha : ∀ c ∈ a, p c = true) (b : List Char) :
    (a ++ b).dropWhile p = b.dropWhile p := by
  induction a with
  | nil => simp
  | cons c t ih =>
    rw [List.cons_append, List.dropWhile_cons_of_pos (ha c (List.mem_cons_self c t)),
      ih (fun x hx => ha x (List.mem_cons_of_mem c hx))]

theorem dropWhile_sdl (R : List Char) :
    (streamDataLit ++ R).dropWhile isPySpace = streamDataLit ++ R := by
  have h : streamDataLit ++ R = 's' :: (['t', 'r', 'e', 'a', 'm', '_', 'd', 'a', 't', 'a'] ++ R) := rfl
  rw [h, List.dropWhile_cons_of_neg (by decide)]

theorem stripPfx_sdl_bracket (R : List Char) :
    stripPfx (streamDataLit ++ ['[']) (streamDataLit ++ R) = stripPfx ['['] R := by
  rw [stripPfx_append, stripPfx_self_append]
  rfl

theorem stripPfx_bracket_colon (R : List Char) : stripPfx ['['] (':' :: R) = none := by
  simp [stripPfx]

theorem stripPfx_bracket_space {c : Char} (hc : isPySpace c = true) (R : List Char) :
    stripPfx ['['] (c :: R) = none := by
  have hne : ¬ (c = '[') := by
    intro hh
    rw [hh] at hc
    cases hc
  simp [stripPfx, hne]

theorem streamMatch_none_of_colon {cs sp1 sp2 R : List Char}
    (hshape : cs = sp1 ++ (streamDataLit ++ (sp2 ++ (':' :: R))))
    (h1 : ∀ c ∈ sp1, isPySpace c = true) (h2 : ∀ c ∈ sp2, isPySpace c = true) :
    streamMatch cs = none := by
  subst hshape
  unfold streamMatch
  rw [dropWhile_all_append h1, dropWhile_sdl, stripPfx_sdl_bracket]
  cases sp2 with
  | nil => rw [List.nil_append, stripPfx_bracket_colon]; rfl
  | cons c sp2t =>
    rw [List.cons_append, stripPfx_bracket_space (h2 c (List.mem_cons_self c sp2t))]
    rfl

theorem countMatch_elim {cs pre ds suf : List Char}
    (h : countMatch cs = some (pre, ds, suf)) :
    ∃ sp1 sp2 sp3,
      pre = sp1 ++ streamDataLit ++ sp2 ++ [':'] ++ sp3 ∧
      (∀ c ∈ sp1, isPySpace c = true) ∧ (∀ c ∈ sp2, isPySpace c = true) ∧
      (∀ c ∈ sp3, isPySpace c = true) ∧ (∀ c ∈ ds, c.isDigit = true) ∧ ds ≠ [] ∧
      (∀ c ∈ suf, isPySpace c = true) ∧ cs = pre ++ ds ++ suf := by
  unfold countMatch at h
  split at h
  · cases h
  · next r2 heq1 =>
    split at h
    · cases h
    · next r4 heq2 =>
      simp only [] at h
      split at h
      · cases h
      · split at h
        · next hall =>
          simp only [Option.some.injEq, Prod.mk.injEq] at h
          obtain ⟨hpre, hds, hsuf⟩ := h
          refine ⟨cs.takeWhile isPySpace, r2.takeWhile isPySpace, r4.takeWhile isPySpace,
            hpre.symm, ?_, ?_, ?_, ?_, ?_, ?_, ?_⟩
          · exact fun c hc => List.mem_takeWhile_imp hc
          · exact fun c hc => List.mem_takeWhile_imp hc
          · exact fun c hc => List.mem_takeWhile_imp hc
          · intro c hc
            rw [← hds] at hc
            exact List.mem_takeWhile_imp hc
          · rw [← hds]
            assumption
          · intro c hc
            rw [← hsuf] at hc
            exact List.all_eq_true.mp hall c hc
          · have e1 : cs = cs.takeWhile isPySpace ++ cs.dropWhile isPySpace :=
              (List.takeWhile_append_dropWhile (p := isPySpace) (l := cs)).symm
            have e2 : cs.dropWhile isPySpace = streamDataLit ++ r2 := stripPfx_eq_some heq1
            have e3 : r2.dropWhile isPySpace = ':' :: r4 := by
              have := stripPfx_eq_some heq2
              simpa using this
            have e4 : r2 = r2.takeWhile isPySpace ++ (':' :: r4) := by
              conv_lhs => rw [← List.takeWhile_append_dropWhile (p := isPySpace) (l := r2)]
              rw [e3]
            have e5 : r4 = r4.takeWhile isPySpace ++ r4.dropWhile isPySpace :=
              (List.takeWhile_append_dropWhile (p := isPySpace) (l := r4)).symm
            have e6 : r4.dropWhile isPySpace =
                (r4.dropWhile isPySpace).takeWhile Char.isDigit ++
                  (r4.dropWhile isPySpace).dropWhile Char.isDigit :=
              (List.takeWhile_append_dropWhile (p := Char.isDigit)
                (l := r4.dropWhile isPySpace)).symm
            rw [e1, e2, e4, ← hpre, ← hds, ← hsuf]
            conv_lhs => rw [e5, e6]
            simp
        · cases h

theorem countMatch_rebuilt_decode_none {cs pre ds suf : List Char}
    (h : countMatch cs = some (pre, ds, suf)) (hnl : '\n' ∉ cs)
    (n : Nat) (t : List Char) (ht : t = [] ∨ t = ['\n']) :
    decodeLine (pre ++ natChars n ++ suf ++ t) = none := by
  rcases countMatch_elim h with
    ⟨sp1, sp2, sp3, hpre, hs1, hs2, hs3, hds, hdne, hsuf, hcs⟩
  have hnl2 : '\n' ∉ pre ++ natChars n ++ suf := by
    intro hmem
    simp only [List.mem_append] at hmem
    rcases hmem with (hm | hm) | hm
    · exact hnl (by rw [hcs]; simp [hm])
    · have := natChars_all_digit n _ hm
      cases this
    · exact hnl (by rw [hcs]; simp [hm])
  have hr : pyRstripNl (pre ++ natChars n ++ suf ++ t) = pre ++ natChars n ++ suf := by
    rcases ht with ht | ht <;> subst ht
    · rw [List.append_nil]
      exact pyRstripNl_of_not_mem hnl2
    · rw [pyRstripNl_append_nl]
      exact pyRstripNl_of_not_mem hnl2
  unfold decodeLine
  rw [hr]
  have hshape : pre ++ natChars n ++ suf =
      sp1 ++ (streamDataLit ++ (sp2 ++ (':' :: (sp3 ++ natChars n ++ suf)))) := by
    rw [hpre]
    simp
  rw [streamMatch_none_of_colon hshape hs1 hs2]

/-! ### Decoding an encoded station line -/

theorem stripPfx_single_self (c : Char) (R : List Char) :
    stripPfx [c] (c :: R) = some R := by
  simp [stripPfx]

theorem takeWhile_digit_rbracket (R : List Char) :
    (']' :: R).takeWhile Char.isDigit = [] := rfl

theorem dropWhile_digit_rbracket (R : List Char) :
    (']' :: R).dropWhile Char.isDigit = ']' :: R := rfl

theorem dropWhile_space_colon (R : List Char) :
    (':' :: R).dropWhile isPySpace = ':' :: R := rfl

theorem dropWhile_space_blank (R : List Char) :
    (' ' :: R).dropWhile isPySpace = R.dropWhile isPySpace := rfl

theorem dropWhile_space_quote (R : List Char) :
    ('"' :: R).dropWhile isPySpace = '"' :: R := rfl

theorem streamMatch_encoded {ds payload : List Char} (h1 : ds ≠ [])
    (h2 : ∀ c ∈ ds, c.isDigit = true) (h3 : '\n' ∉ payload) :
    streamMatch (streamDataLit ++
      '[' :: (ds ++ ']' :: ':' :: ' ' :: '"' :: (payload ++ ['"']))) =
      some (ds, payload) := by
  unfold streamMatch
  rw [dropWhile_sdl, stripPfx_sdl_bracket, stripPfx_single_self, Option.some_bind]
  have htw : (ds ++ ']' :: ':' :: ' ' :: '"' :: (payload ++ ['"'])).takeWhile Char.isDigit
      = ds := by
    rw [takeWhile_all_append h2, takeWhile_digit_rbracket, List.append_nil]
  have hdw : (ds ++ ']' :: ':' :: ' ' :: '"' :: (payload ++ ['"'])).dropWhile Char.isDigit
      = ']' :: ':' :: ' ' :: '"' :: (payload ++ ['"']) := by
    rw [dropWhile_all_append h2, dropWhile_digit_rbracket]
  simp only [htw, if_neg h1, hdw, stripPfx_single_self, Option.some_bind,
    dropWhile_space_colon, dropWhile_space_blank, dropWhile_space_quote]
  have hrev : (payload ++ ['"']).reverse = '"' :: payload.reverse := by simp
  rw [hrev, dropWhile_space_quote, stripPfx_single_self, Option.some_bind,
    List.reverse_reverse, if_neg h3]

theorem intChars_not_pipe {b : Int} {c : Char} (hc : c ∈ intChars b) : c ≠ '|' := by
  unfold intChars at hc
  by_cases hb : b < 0
  · rw [if_pos hb] at hc
    rcases List.mem_cons.mp hc with h | h
    · subst h; decide
    · intro he
      subst he
      have := natChars_all_digit _ _ h
      cases this
  · rw [if_neg hb] at hc
    intro he
    subst he
    have := natChars_all_digit _ _ hc
    cases this

theorem intChars_clean {b : Int} : cleanBody (intChars b) = true := by
  refine cleanBody_of_forall (fun c hc => ?_)
  unfold intChars at hc
  by_cases hb : b < 0
  · rw [if_pos hb] at hc
    rcases List.mem_cons.mp hc with h | h
    · subst h; decide
    · exact isLineBreak_of_isDigit (natChars_all_digit _ _ h)
  · rw [if_neg hb] at hc
    exact isLineBreak_of_isDigit (natChars_all_digit _ _ hc)

theorem intChars_not_space {b : Int} {c : Char} (hc : c ∈ intChars b) :
    isPySpace c = false := by
  unfold intChars at hc
  by_cases hb : b < 0
  · rw [if_pos hb] at hc
    rcases List.mem_cons.mp hc with h | h
    · subst h; decide
    · exact isPySpace_of_isDigit (natChars_all_digit _ _ h)
  · rw [if_neg hb] at hc
    exact isPySpace_of_isDigit (natChars_all_digit _ _ hc)

theorem splitOnChar_payloadOf {s : Station}
    (hu : '|' ∉ s.url) (hn : '|' ∉ s.name) (hg : '|' ∉ s.genre) (hl : '|' ∉ s.language) :
    splitOnChar '|' (payloadOf s) =
      [s.url, s.name, s.genre, s.language, intChars s.bitrate,
        [if s.favorite then '1' else '0']] := by
  have hb : '|' ∉ intChars s.bitrate := fun hmem => intChars_not_pipe hmem rfl
  have hf : '|' ∉ [if s.favorite then '1' else '0'] := by
    cases s.favorite <;> simp
  have e : payloadOf s =
      s.url ++ '|' :: (s.name ++ '|' :: (s.genre ++ '|' :: (s.language ++ '|' ::
        (intChars s.bitrate ++ '|' :: [if s.favorite then '1' else '0'])))) := by
    unfold payloadOf
    simp
  rw [e, splitOnChar_append_sep hu, splitOnChar_append_sep hn, splitOnChar_append_sep hg,
    splitOnChar_append_sep hl, splitOnChar_append_sep hb, splitOnChar_not_mem hf]

theorem payloadOf_clean {s : Station} (hs : cleanStation s) :
    cleanBody (payloadOf s) = true := by
  rcases hs with ⟨⟨_, hu⟩, ⟨_, hn⟩, ⟨_, hg⟩, ⟨_, hl⟩⟩
  have h1 : isLineBreak '|' = false := by decide
  have h2 : isLineBreak (if s.favorite then '1' else '0') = false := by
    cases s.favorite <;> decide
  have h0 : cleanBody ([] : List Char) = true := rfl
  unfold payloadOf
  simp [cleanBody_append, cleanBody_cons, hu, hn, hg, hl, intChars_clean, h1, h2, h0]

theorem payloadOf_no_nl {s : Station} (hs : cleanStation s) : '\n' ∉ payloadOf s :=
  fun hmem => absurd (cleanBody_mem (payloadOf_clean hs) hmem) (by decide)

theorem pyRstripNl_concat_ne {y : List Char} {c : Char} (hc : c ≠ '\n') :
    pyRstripNl (y ++ [c]) = y ++ [c] := by
  unfold pyRstripNl
  rw [List.reverse_append]
  simp only [List.reverse_cons, List.reverse_nil, List.nil_append, List.singleton_append]
  rw [List.dropWhile_cons_of_neg (by simpa using hc)]
  simp

theorem encodedLine_eq (i : Nat) (s : Station) :
    encodedLine i s = (streamDataLit ++
      '[' :: (natChars i ++ ']' :: ':' :: ' ' :: '"' :: (payloadOf s ++ ['"']))) ++ ['\n'] := by
  unfold encodedLine payloadOf
  simp

theorem decodeLine_of_streamMatch {line ds payload : List Char}
    (h : streamMatch (pyRstripNl line) = some (ds, payload)) :
    decodeLine line =
      match splitOnChar '|' payload with
      | [u, n, g, la, b, f] =>
        some { url := pyStrip u, name := pyStrip n, genre := pyStrip g,
               language := pyStrip la, bitrate := pyIntOr0 b,
               favorite := decide (pyStrip f = ['1']) }
      | _ => none := by
  unfold decodeLine
  rw [h]

theorem pyRstripNl_encodedLine (i : Nat) (s : Station) :
    pyRstripNl (encodedLine i s) = streamDataLit ++
      '[' :: (natChars i ++ ']' :: ':' :: ' ' :: '"' :: (payloadOf s ++ ['"'])) := by
  rw [encodedLine_eq, pyRstripNl_append_nl]
  have e : streamDataLit ++
      '[' :: (natChars i ++ ']' :: ':' :: ' ' :: '"' :: (payloadOf s ++ ['"'])) =
      (streamDataLit ++
        '[' :: (natChars i ++ ']' :: ':' :: ' ' :: '"' :: payloadOf s)) ++ ['"'] := by
    simp
  rw [e, pyRstripNl_concat_ne (by decide), ← e]

theorem decode_encodedLine {i : Nat} {s : Station} (hs : cleanStation s)
    (hu : '|' ∉ s.url) (hn : '|' ∉ s.name) (hg : '|' ∉ s.genre) (hl : '|' ∉ s.language) :
    decodeLine (encodedLine i s) = some s := by
  have hsm : streamMatch (pyRstripNl (encodedLine i s)) = some (natChars i, payloadOf s) := by
    rw [pyRstripNl_encodedLine]
    exact streamMatch_encoded (natChars_ne_nil i) (natChars_all_digit i) (payloadOf_no_nl hs)
  rw [decodeLine_of_streamMatch hsm, splitOnChar_payloadOf hu hn hg hl]
  show some (Station.mk (pyStrip s.url) (pyStrip s.name) (pyStrip s.genre)
    (pyStrip s.language) (pyIntOr0 (intChars s.bitrate))
    (decide (pyStrip [if s.favorite then '1' else '0'] = ['1']))) = some s
  rcases hs with ⟨⟨hu1, _⟩, ⟨hn1, _⟩, ⟨hg1, _⟩, ⟨hl1, _⟩⟩
  rw [hu1, hn1, hg1, hl1]
  have hfav : pyStrip [if s.favorite then '1' else '0'] = [if s.favorite then '1' else '0'] := by
    cases hb : s.favorite <;> decide
  rw [hfav]
  have hbit : pyIntOr0 (intChars s.bitrate) = s.bitrate := by
    unfold pyIntOr0
    rw [pyInt_intChars]
    rfl
  rw [hbit]
  have hfav2 : decide ([if s.favorite then '1' else '0'] = ['1']) = s.favorite := by
    cases s.favorite <;> decide
  rw [hfav2]

/-! ### Encoded lines: shape and matcher facts -/

theorem natChars_clean (n : Nat) : cleanBody (natChars n) = true :=
  cleanBody_of_forall (fun c hc => isLineBreak_of_isDigit (natChars_all_digit n c hc))

theorem streamDataLit_clean : cleanBody streamDataLit = true := by decide

theorem encodedLine_isNl {i : Nat} {s : Station} (hs : cleanStation s) :
    isNlLine (encodedLine i s) = true := by
  rw [encodedLine_eq]
  refine isNlLine_append_nl ?_
  have h1 : isLineBreak '[' = false := by decide
  have h2 : isLineBreak ']' = false := by decide
  have h3 : isLineBreak ':' = false := by decide
  have h4 : isLineBreak ' ' = false := by decide
  have h5 : isLineBreak '"' = false := by decide
  have h0 : cleanBody ([] : List Char) = true := rfl
  simp [cleanBody_append, cleanBody_cons, streamDataLit_clean, natChars_clean,
    payloadOf_clean hs, h1, h2, h3, h4, h5, h0]

theorem mem_encodedLine_s (i : Nat) (s : Station) : 's' ∈ encodedLine i s := by
  rw [encodedLine_eq]
  simp [streamDataLit]

theorem encodedLine_strip_ne (i : Nat) (s : Station) : pyStrip (encodedLine i s) ≠ [] := by
  intro he
  have := mem_pyStrip_of_mem (mem_encodedLine_s i s) (by decide)
  rw [he] at this
  cases this

theorem countMatch_encodedLine (i : Nat) (s : Station) :
    countMatch (pyRstripNl (encodedLine i s)) = none := by
  rw [pyRstripNl_encodedLine]
  unfold countMatch
  rw [dropWhile_sdl, stripPfx_self_append]
  rfl

theorem decode_none_of_countMatch {l : List Char}
    (h : countMatch (pyRstripNl l) ≠ none) : decodeLine l = none := by
  cases hc : countMatch (pyRstripNl l) with
  | none => exact absurd hc h
  | some v =>
    obtain ⟨pre, ds, suf⟩ := v
    rcases countMatch_elim hc with ⟨sp1, sp2, sp3, hpre, hs1, hs2, _, _, _, _, hcs⟩
    unfold decodeLine
    rw [streamMatch_none_of_colon (R := sp3 ++ ds ++ suf) (by rw [hcs, hpre]; simp) hs1 hs2]

theorem station_to_line_ok_elim {i : Nat} {s : Station} {l : List Char}
    (h : station_to_line i s = .ok l) :
    l = encodedLine i s ∧ '|' ∉ s.url ∧ '|' ∉ s.name ∧ '|' ∉ s.genre ∧ '|' ∉ s.language := by
  unfold station_to_line at h
  split at h
  · cases h
  · next hcond =>
    rw [not_or, not_or, not_or] at hcond
    obtain ⟨h1, h2, h3, h4⟩ := hcond
    injection h with hl
    exact ⟨hl.symm, h1, h2, h3, h4⟩

theorem station_to_line_error {i : Nat} {s : Station}
    (h : '|' ∈ s.url ∨ '|' ∈ s.name ∨ '|' ∈ s.genre ∨ '|' ∈ s.language) :
    station_to_line i s = .error .fieldContainsDelimiter := by
  unfold station_to_line
  rw [if_pos h]

theorem encodeStationsFrom_error_of_bad {stations : List Station} {s : Station}
    (hs : s ∈ stations)
    (hbad : '|' ∈ s.url ∨ '|' ∈ s.name ∨ '|' ∈ s.genre ∨ '|' ∈ s.language) :
    ∀ i, encodeStationsFrom i stations = .error .fieldContainsDelimiter := by
  induction stations with
  | nil => cases hs
  | cons t rest ih =>
    intro i
    rcases List.mem_cons.mp hs with he | hm
    · subst he
      unfold encodeStationsFrom
      rw [station_to_line_error hbad]
    · unfold encodeStationsFrom
      cases ht : station_to_line i t with
      | error e => cases e; rfl
      | ok l => rw [ih hm (i + 1)]

theorem encodeStationsFrom_ok_elim : ∀ {stations : List Station} {i : Nat}
    {block : List (List Char)}, encodeStationsFrom i stations = .ok block →
    ∀ l ∈ block, ∃ j s, s ∈ stations ∧ l = encodedLine j s ∧
      '|' ∉ s.url ∧ '|' ∉ s.name ∧ '|' ∉ s.genre ∧ '|' ∉ s.language := by
  intro stations
  induction stations with
  | nil =>
    intro i block h l hl
    injection h with h
    rw [← h] at hl
    cases hl
  | cons t rest ih =>
    intro i block h l hl
    unfold encodeStationsFrom at h
    cases ht : station_to_line i t with
    | error e => rw [ht] at h; cases h
    | ok el =>
      rw [ht] at h
      cases hr : encodeStationsFrom (i + 1) rest with
      | error e => rw [hr] at h; cases h
      | ok ls =>
        rw [hr] at h
        injection h with h
        rw [← h] at hl
        rcases station_to_line_ok_elim ht with ⟨hel, h1, h2, h3, h4⟩
        rcases List.mem_cons.mp hl with he | hm
        · exact ⟨i, t, List.mem_cons_self t rest, he.trans hel, h1, h2, h3, h4⟩
        · rcases ih hr l hm with ⟨j, s, hsm, rest2⟩
          exact ⟨j, s, List.mem_cons_of_mem t hsm, rest2⟩

theorem encodeStationsFrom_filterMap : ∀ {stations : List Station} {i : Nat}
    {block : List (List Char)}, encodeStationsFrom i stations = .ok block →
    (∀ s ∈ stations, cleanStation s) → block.filterMap decodeLine = stations := by
  intro stations
  induction stations with
  | nil =>
    intro i block h _
    injection h with h
    rw [← h]
    rfl
  | cons t rest ih =>
    intro i block h hc
    unfold encodeStationsFrom at h
    cases ht : station_to_line i t with
    | error e => rw [ht] at h; cases h
    | ok el =>
      rw [ht] at h
      cases hr : encodeStationsFrom (i + 1) rest with
      | error e => rw [hr] at h; cases h
      | ok ls =>
        rw [hr] at h
        injection h with h
        rw [← h, List.filterMap_cons]
        rcases station_to_line_ok_elim ht with ⟨hel, h1, h2, h3, h4⟩
        rw [hel, decode_encodedLine (hc t (List.mem_cons_self t rest)) h1 h2 h3 h4,
          ih hr (fun s hs => hc s (List.mem_cons_of_mem t hs))]

/-! ### The count-line rewrite -/

theorem termNl_cases (l : List Char) : termNl l = [] ∨ termNl l = ['\n'] := by
  unfold termNl
  split
  · exact Or.inr rfl
  · exact Or.inl rfl

theorem update_nil (n : Nat) : update_stream_data_count_line n [] = ([], false) := rfl

theorem update_cons_match {n : Nat} {l : List Char} {pre ds suf : List Char}
    (hc : countMatch (pyRstripNl l) = some (pre, ds, suf)) (rest : List (List Char)) :
    update_stream_data_count_line n (l :: rest) =
      ((pre ++ natChars n ++ suf ++ termNl l) :: rest, true) := by
  have h : update_stream_data_count_line n (l :: rest) =
      match countMatch (pyRstripNl l) with
      | some (pre2, _, suf2) => ((pre2 ++ natChars n ++ suf2 ++ termNl l) :: rest, true)
      | none => (l :: (update_stream_data_count_line n rest).1,
          (update_stream_data_count_line n rest).2) := rfl
  rw [h, hc]

theorem update_cons_nomatch {n : Nat} {l : List Char}
    (hc : countMatch (pyRstripNl l) = none) (rest : List (List Char)) :
    update_stream_data_count_line n (l :: rest) =
      (l :: (update_stream_data_count_line n rest).1,
        (update_stream_data_count_line n rest).2) := by
  have h : update_stream_data_count_line n (l :: rest) =
      match countMatch (pyRstripNl l) with
      | some (pre2, _, suf2) => ((pre2 ++ natChars n ++ suf2 ++ termNl l) :: rest, true)
      | none => (l :: (update_stream_data_count_line n rest).1,
          (update_stream_data_count_line n rest).2) := rfl
  rw [h, hc]

theorem countMatch_nil : countMatch (pyRstripNl ['\n']) = none := by decide

theorem rebuiltCount_of_match {n : Nat} {l : List Char} {pre ds suf : List Char}
    (hc : countMatch (pyRstripNl l) = some (pre, ds, suf)) :
    rebuiltCount n l = pre ++ natChars n ++ suf ++ termNl l := by
  unfold rebuiltCount
  rw [hc]

theorem rebuiltCount_of_nomatch {n : Nat} {l : List Char}
    (hc : countMatch (pyRstripNl l) = none) : rebuiltCount n l = l := by
  unfold rebuiltCount
  rw [hc]

theorem firstCountIdx_cons_match {l : List Char}
    (hc : (countMatch (pyRstripNl l)).isSome = true) (rest : List (List Char)) :
    firstCountIdx (l :: rest) = some 0 := by
  unfold firstCountIdx
  rw [if_pos hc]

theorem firstCountIdx_cons_nomatch {l : List Char}
    (hc : countMatch (pyRstripNl l) = none) (rest : List (List Char)) :
    firstCountIdx (l :: rest) = (firstCountIdx rest).map (· + 1) := by
  have h : firstCountIdx (l :: rest) =
      if (countMatch (pyRstripNl l)).isSome = true then some 0
      else (firstCountIdx rest).map (· + 1) := rfl
  rw [h, hc]
  simp

theorem update_eq_first (n : Nat) : ∀ (L : List (List Char)),
    update_stream_data_count_line n L =
      match firstCountIdx L with
      | none => (L, false)
      | some i => (L.set i (rebuiltCount n (L.getD i [])), true) := by
  intro L
  induction L with
  | nil => rfl
  | cons l rest ih =>
    cases hc : countMatch (pyRstripNl l) with
    | some v =>
      obtain ⟨pre, ds, suf⟩ := v
      rw [update_cons_match hc, firstCountIdx_cons_match (by rw [hc]; rfl)]
      show ((pre ++ natChars n ++ suf ++ termNl l) :: rest, true) =
        (rebuiltCount n l :: rest, true)
      rw [rebuiltCount_of_match hc]
    | none =>
      rw [update_cons_nomatch hc, firstCountIdx_cons_nomatch hc, ih]
      cases hf : firstCountIdx rest with
      | none => rfl
      | some i => rfl

theorem firstCountIdx_none_iff {L : List (List Char)} :
    firstCountIdx L = none ↔ ∀ l ∈ L, countMatch (pyRstripNl l) = none := by
  induction L with
  | nil => simp [firstCountIdx]
  | cons l rest ih =>
    constructor
    · intro h x hx
      cases hc : countMatch (pyRstripNl l) with
      | some v =>
        rw [firstCountIdx_cons_match (by rw [hc]; rfl)] at h
        cases h
      | none =>
        rw [firstCountIdx_cons_nomatch hc] at h
        rcases List.mem_cons.mp hx with he | hm
        · subst he; exact hc
        · exact ih.mp (by cases hfr : firstCountIdx rest with
            | none => rfl
            | some j => rw [hfr] at h; cases h) x hm
    · intro h
      rw [firstCountIdx_cons_nomatch (h l (List.mem_cons_self l rest))]
      rw [ih.mpr (fun x hx => h x (List.mem_cons_of_mem l hx))]
      rfl

theorem firstCountIdx_some_elim : ∀ {L : List (List Char)} {i : Nat},
    firstCountIdx L = some i →
    i < L.length ∧ (countMatch (pyRstripNl (L.getD i []))).isSome = true ∧
      ∀ j < i, countMatch (pyRstripNl (L.getD j [])) = none := by
  intro L
  induction L with
  | nil => intro i h; cases h
  | cons l rest ih =>
    intro i h
    cases hc : countMatch (pyRstripNl l) with
    | some v =>
      rw [firstCountIdx_cons_match (by rw [hc]; rfl)] at h
      injection h with h
      subst h
      refine ⟨Nat.succ_pos _, ?_, ?_⟩
      · show (countMatch (pyRstripNl l)).isSome = true
        rw [hc]
        rfl
      intro j hj
      cases hj
    | none =>
      rw [firstCountIdx_cons_nomatch hc] at h
      cases hf : firstCountIdx rest with
      | none => rw [hf] at h; cases h
      | some k =>
        rw [hf] at h
        injection h with h
        subst h
        rcases ih hf with ⟨h1, h2, h3⟩
        refine ⟨Nat.succ_lt_succ h1, h2, ?_⟩
        intro j hj
        cases j with
        | zero => exact hc
        | succ j2 => exact h3 j2 (Nat.lt_of_succ_lt_succ hj)

theorem rebuiltCount_isNl {n : Nat} {l : List Char} (hl : isNlLine l = true) :
    isNlLine (rebuiltCount n l) = true := by
  cases hc : countMatch (pyRstripNl l) with
  | none => rw [rebuiltCount_of_nomatch hc]; exact hl
  | some v =>
    obtain ⟨pre, ds, suf⟩ := v
    rw [rebuiltCount_of_match hc]
    rcases countMatch_elim hc with ⟨sp1, sp2, sp3, hpre, hs1, hs2, hs3, hds, hdne, hsuf, hcs⟩
    have htermNl : termNl l = ['\n'] := by
      unfold termNl
      rw [if_pos (isNlLine_getLast hl)]
    rcases isNlLine_elim hl with ⟨body, t, hbody, ht, hlbody⟩
    rcases ht with ht | ht
    · subst ht
      subst hlbody
      have hr : pyRstripNl (body ++ ['\n']) = body := by
        rw [pyRstripNl_append_nl]
        exact pyRstripNl_of_not_mem
          (fun hm => ne_nl_of_clean (cleanBody_mem hbody hm) rfl)
      rw [hr] at hcs
      rw [htermNl]
      have hclean : cleanBody (pre ++ natChars n ++ suf) = true := by
        refine cleanBody_of_forall ?_
        intro c hcm
        simp only [List.mem_append] at hcm
        rcases hcm with (hm | hm) | hm
        · exact cleanBody_mem hbody (by rw [hcs]; simp [hm])
        · exact isLineBreak_of_isDigit (natChars_all_digit n c hm)
        · exact cleanBody_mem hbody (by rw [hcs]; simp [hm])
      exact isNlLine_append_nl hclean
    · subst ht
      subst hlbody
      have hr : pyRstripNl (body ++ ['\r', '\n']) = body ++ ['\r'] := by
        have e : body ++ ['\r', '\n'] = (body ++ ['\r']) ++ ['\n'] := by simp
        rw [e, pyRstripNl_append_nl]
        exact pyRstripNl_concat_ne (by decide)
      rw [hr] at hcs
      have hlastr : (body ++ ['\r']).getLast? = some '\r' := List.getLast?_concat _
      have hsne : suf ≠ [] := by
        intro he
        subst he
        rw [List.append_nil] at hcs
        rw [hcs, List.getLast?_append] at hlastr
        have hdsne := hdne
        cases hgl : ds.getLast? with
        | none => rw [hgl] at hlastr; exact hdsne (List.getLast?_eq_none_iff.mp hgl)
        | some d =>
          rw [hgl] at hlastr
          have hd : d = '\r' := by
            simpa [Option.or] using hlastr
          have := hds d (List.mem_of_getLast?_eq_some hgl)
          rw [hd] at this
          cases this
      have hslast : suf.getLast? = some '\r' := by
        rw [hcs, List.getLast?_append] at hlastr
        cases hgl : suf.getLast? with
        | none => exact absurd (List.getLast?_eq_none_iff.mp hgl) hsne
        | some x =>
          rw [hgl] at hlastr
          have : x = '\r' := by simpa [Option.or] using hlastr
          rw [this]
      have hsufeq : suf = suf.dropLast ++ ['\r'] := by
        have hgl2 : suf.getLast hsne = '\r' := by
          have := List.getLast?_eq_getLast suf hsne
          rw [this] at hslast
          exact Option.some.inj hslast
        rw [← hgl2]
        exact (List.dropLast_concat_getLast hsne).symm
      have hbeq : body = pre ++ ds ++ suf.dropLast := by
        have e2 : pre ++ ds ++ suf = (pre ++ ds ++ suf.dropLast) ++ ['\r'] := by
          rw [hsufeq]
          simp
        rw [e2] at hcs
        exact (List.append_left_inj _).mp hcs
      rw [htermNl, hsufeq]
      have hclean : cleanBody (pre ++ natChars n ++ suf.dropLast) = true := by
        refine cleanBody_of_forall ?_
        intro c hcm
        simp only [List.mem_append] at hcm
        rcases hcm with (hm | hm) | hm
        · exact cleanBody_mem hbody (by rw [hbeq]; simp [hm])
        · exact isLineBreak_of_isDigit (natChars_all_digit n c hm)
        · exact cleanBody_mem hbody (by rw [hbeq]; simp [hm])
      have hE : pre ++ natChars n ++ (suf.dropLast ++ ['\r']) ++ ['\n'] =
          (pre ++ natChars n ++ suf.dropLast) ++ ['\r', '\n'] := by
        simp
      rw [hE]
      exact isNlLine_append_crnl hclean

theorem rebuiltCount_bare {n : Nat} {l : List Char} (hl : bareLine l = true) :
    bareLine (rebuiltCount n l) = true := by
  cases hc : countMatch (pyRstripNl l) with
  | none => rw [rebuiltCount_of_nomatch hc]; exact hl
  | some v =>
    obtain ⟨pre, ds, suf⟩ := v
    rw [rebuiltCount_of_match hc]
    rcases Bool.and_eq_true_iff.mp hl with ⟨hne, hclean⟩
    have hr : pyRstripNl l = l :=
      pyRstripNl_of_not_mem (fun hm => ne_nl_of_clean (cleanBody_mem hclean hm) rfl)
    rw [hr] at hc
    rcases countMatch_elim hc with ⟨sp1, sp2, sp3, hpre, hs1, hs2, hs3, hds, hdne, hsuf, hcs⟩
    have htermNl : termNl l = [] := by
      unfold termNl
      rw [if_neg (bareLine_getLast hl)]
    rw [htermNl, List.append_nil]
    unfold bareLine
    have hcln : cleanBody (pre ++ natChars n ++ suf) = true := by
      refine cleanBody_of_forall ?_
      intro c hcm
      simp only [List.mem_append] at hcm
      rcases hcm with (hm | hm) | hm
      · exact cleanBody_mem hclean (by rw [hcs]; simp [hm])
      · exact isLineBreak_of_isDigit (natChars_all_digit n c hm)
      · exact cleanBody_mem hclean (by rw [hcs]; simp [hm])
    have hnn : pre ++ natChars n ++ suf ≠ [] := by
      intro he
      have h1 := List.append_eq_nil.mp he
      have h2 := List.append_eq_nil.mp h1.1
      exact natChars_ne_nil n h2.2
    refine Bool.and_eq_true_iff.mpr ⟨?_, hcln⟩
    exact decide_eq_true hnn

theorem okLines_mem_shape : ∀ {L : List (List Char)}, okLines L = true →
    ∀ l ∈ L, isNlLine l = true ∨ bareLine l = true := by
  intro L
  induction L with
  | nil => intro _ l hl; cases hl
  | cons a rest ih =>
    intro h l hl
    cases rest with
    | nil =>
      rw [okLines_single] at h
      rcases List.mem_cons.mp hl with he | hm
      · subst he; exact Bool.or_eq_true_iff.mp h
      · cases hm
    | cons b rest2 =>
      rw [okLines_cons2] at h
      by_cases hnl : isNlLine a = true
      · rw [if_pos hnl] at h
        rcases List.mem_cons.mp hl with he | hm
        · subst he; exact Or.inl hnl
        · exact ih h l hm
      · rw [if_neg hnl] at h
        rcases Bool.and_eq_true_iff.mp h with ⟨h12, hall⟩
        rcases List.mem_cons.mp hl with he | hm
        · subst he; exact Or.inr (Bool.and_eq_true_iff.mp h12).1
        · exact Or.inl (List.all_eq_true.mp hall l hm)

theorem no_nl_pyRstripNl_of_shape {l : List Char}
    (h : isNlLine l = true ∨ bareLine l = true) : '\n' ∉ pyRstripNl l := by
  rcases h with h | h
  · rcases isNlLine_elim h with ⟨body, t, hbody, ht, hl⟩
    rcases ht with ht | ht <;> subst ht <;> subst hl
    · rw [pyRstripNl_append_nl,
        pyRstripNl_of_not_mem (fun hm => ne_nl_of_clean (cleanBody_mem hbody hm) rfl)]
      exact fun hm => ne_nl_of_clean (cleanBody_mem hbody hm) rfl
    · have e : body ++ ['\r', '\n'] = (body ++ ['\r']) ++ ['\n'] := by simp
      rw [e, pyRstripNl_append_nl, pyRstripNl_concat_ne (by decide)]
      intro hm
      rcases List.mem_append.mp hm with hm | hm
      · exact ne_nl_of_clean (cleanBody_mem hbody hm) rfl
      · simp at hm
  · have hclean := (Bool.and_eq_true_iff.mp h).2
    rw [pyRstripNl_of_not_mem (fun hm => ne_nl_of_clean (cleanBody_mem hclean hm) rfl)]
    exact fun hm => ne_nl_of_clean (cleanBody_mem hclean hm) rfl

theorem rebuiltCount_decode_none {n : Nat} {l : List Char}
    (hsh : isNlLine l = true ∨ bareLine l = true)
    (hm : countMatch (pyRstripNl l) ≠ none) :
    decodeLine (rebuiltCount n l) = none := by
  cases hc : countMatch (pyRstripNl l) with
  | none => exact absurd hc hm
  | some v =>
    obtain ⟨pre, ds, suf⟩ := v
    rw [rebuiltCount_of_match hc]
    exact countMatch_rebuilt_decode_none hc (no_nl_pyRstripNl_of_shape hsh) n _
      (termNl_cases l)

theorem update_fst_allNl {n : Nat} : ∀ {L : List (List Char)},
    (∀ l ∈ L, isNlLine l = true) →
    ∀ l ∈ (update_stream_data_count_line n L).1, isNlLine l = true := by
  intro L
  induction L with
  | nil => intro _ l hl; cases hl
  | cons a rest ih =>
    intro h l hl
    cases hc : countMatch (pyRstripNl a) with
    | some v =>
      obtain ⟨pre, ds, suf⟩ := v
      rw [update_cons_match hc] at hl
      rcases List.mem_cons.mp hl with he | hmm
      · subst he
        have := rebuiltCount_isNl (n := n) (h a (List.mem_cons_self a rest))
        rw [rebuiltCount_of_match hc] at this
        exact this
      · exact h l (List.mem_cons_of_mem a hmm)
    | none =>
      rw [update_cons_nomatch hc] at hl
      rcases List.mem_cons.mp hl with he | hmm
      · rw [he]; exact h a (List.mem_cons_self a rest)
      · exact ih (fun x hx => h x (List.mem_cons_of_mem a hx)) l hmm

theorem update_fst_okLines {n : Nat} : ∀ {L : List (List Char)},
    okLines L = true → okLines (update_stream_data_count_line n L).1 = true := by
  intro L
  induction L with
  | nil => intro _; rfl
  | cons a rest ih =>
    intro h
    have hsh := okLines_mem_shape h a (List.mem_cons_self a rest)
    cases hc : countMatch (pyRstripNl a) with
    | some v =>
      obtain ⟨pre, ds, suf⟩ := v
      rw [update_cons_match hc]
      have hreb : rebuiltCount n a = pre ++ natChars n ++ suf ++ termNl a :=
        rebuiltCount_of_match hc
      rcases hsh with hnl | hbare
      · have h2 := rebuiltCount_isNl (n := n) hnl
        rw [hreb] at h2
        exact okLines_cons_isNl h2 (okLines_tail_of_isNl h hnl)
      · have h2 := rebuiltCount_bare (n := n) hbare
        rw [hreb] at h2
        have hnlA : isNlLine a = false := by
          cases hq : isNlLine a with
          | false => rfl
          | true =>
            have hf := not_bare_of_isNl hq
            rw [hf] at hbare
            exact Bool.noConfusion hbare
        have hnlR : isNlLine (pre ++ natChars n ++ suf ++ termNl a) = false := by
          cases hq : isNlLine (pre ++ natChars n ++ suf ++ termNl a) with
          | false => rfl
          | true =>
            have hf := not_bare_of_isNl hq
            rw [hf] at h2
            exact Bool.noConfusion h2
        cases rest with
        | nil =>
          rw [okLines_single]
          exact Bool.or_eq_true_iff.mpr (Or.inr h2)
        | cons b rest2 =>
          rw [okLines_cons2, if_neg (by rw [hnlA]; exact Bool.false_ne_true)] at h
          rcases Bool.and_eq_true_iff.mp h with ⟨h12, hall⟩
          rcases Bool.and_eq_true_iff.mp h12 with ⟨_, hbeq⟩
          rw [okLines_cons2, if_neg (by rw [hnlR]; exact Bool.false_ne_true)]
          exact Bool.and_eq_true_iff.mpr ⟨Bool.and_eq_true_iff.mpr ⟨h2, hbeq⟩, hall⟩
    | none =>
      rw [update_cons_nomatch hc]
      rcases hsh with hnl | hbare
      · exact okLines_cons_isNl hnl (ih (okLines_tail_of_isNl h hnl))
      · cases rest with
        | nil =>
          rw [update_nil]
          exact h
        | cons b rest2 =>
          have hnl : isNlLine a = false := by
            cases hq : isNlLine a with
            | false => rfl
            | true => rw [not_bare_of_isNl hq] at hbare; cases hbare
          rw [okLines_cons2, if_neg (by rw [hnl]; exact Bool.false_ne_true)] at h
          rcases Bool.and_eq_true_iff.mp h with ⟨h12, hall⟩
          rcases Bool.and_eq_true_iff.mp h12 with ⟨hbare2, hbeq⟩
          have hbe : b = ['\n'] := of_decide_eq_true hbeq
          subst hbe
          have hcm2 : countMatch (pyRstripNl ['\n']) = none := countMatch_nil
          rw [update_cons_nomatch hcm2]
          rw [okLines_cons2, if_neg (by rw [hnl]; exact Bool.false_ne_true)]
          have hallNl : ∀ x ∈ (update_stream_data_count_line n rest2).1,
              isNlLine x = true :=
            update_fst_allNl (fun x hx =>
              List.all_eq_true.mp hall x (List.mem_cons_of_mem _ hx))
          refine Bool.and_eq_true_iff.mpr ⟨Bool.and_eq_true_iff.mpr ⟨hbare2, by simp⟩, ?_⟩
          refine List.all_eq_true.mpr ?_
          intro x hx
          rcases List.mem_cons.mp hx with he | hmm
          · subst he; decide
          · exact hallNl x hmm

theorem update_fst_filterMap {n : Nat} : ∀ {L : List (List Char)},
    (∀ l ∈ L, isNlLine l = true ∨ bareLine l = true) →
    (update_stream_data_count_line n L).1.filterMap decodeLine =
      L.filterMap decodeLine := by
  intro L
  induction L with
  | nil => intro _; rfl
  | cons a rest ih =>
    intro h
    cases hc : countMatch (pyRstripNl a) with
    | some v =>
      obtain ⟨pre, ds, suf⟩ := v
      rw [update_cons_match hc, List.filterMap_cons, List.filterMap_cons]
      have h1 : decodeLine a = none :=
        decode_none_of_countMatch (by rw [hc]; exact fun hh => Option.noConfusion hh)
      have h2 : decodeLine (pre ++ natChars n ++ suf ++ termNl a) = none := by
        have := rebuiltCount_decode_none (n := n)
          (h a (List.mem_cons_self a rest))
          (by rw [hc]; exact fun hh => Option.noConfusion hh)
        rw [rebuiltCount_of_match hc] at this
        exact this
      rw [h1, h2]
    | none =>
      rw [update_cons_nomatch hc, List.filterMap_cons, List.filterMap_cons]
      have htail := ih (fun x hx => h x (List.mem_cons_of_mem a hx))
      cases hd : decodeLine a <;> rw [htail]

/-! ### Structural lemmas for line placement -/

theorem allNl_nlShaped {L : List (List Char)} (h : ∀ l ∈ L, isNlLine l = true) :
    nlShaped L = true := by
  have := nlShaped_append h (B := []) rfl
  simpa using this

theorem okLines_allNl {L : List (List Char)} (h : ∀ l ∈ L, isNlLine l = true) :
    okLines L = true :=
  okLines_of_nlShaped (allNl_nlShaped h)

theorem okLines_allNl_bare {P : List (List Char)} {b : List Char}
    (hP : ∀ l ∈ P, isNlLine l = true) (hb : bareLine b = true) :
    okLines (P ++ [b]) = true := by
  refine okLines_of_nlShaped (nlShaped_append hP ?_)
  rw [nlShaped_single]
  exact Bool.or_eq_true_iff.mpr (Or.inr hb)

theorem okLines_bare_mid {P C : List (List Char)} {b : List Char}
    (hP : ∀ l ∈ P, isNlLine l = true) (hb : bareLine b = true)
    (hC : ∀ l ∈ C, isNlLine l = true) :
    okLines (P ++ b :: ['\n'] :: C) = true := by
  induction P with
  | nil =>
    rw [List.nil_append, okLines_cons2]
    have hnl : isNlLine b = false := by
      cases hq : isNlLine b with
      | false => rfl
      | true =>
        have hf := not_bare_of_isNl hq
        rw [hf] at hb
        exact Bool.noConfusion hb
    rw [if_neg (by rw [hnl]; exact Bool.false_ne_true)]
    refine Bool.and_eq_true_iff.mpr ⟨Bool.and_eq_true_iff.mpr ⟨hb, by simp⟩, ?_⟩
    refine List.all_eq_true.mpr ?_
    intro x hx
    rcases List.mem_cons.mp hx with he | hmm
    · subst he; decide
    · exact hC x hmm
  | cons p P2 ih =>
    rw [List.cons_append]
    exact okLines_cons_isNl (hP p (List.mem_cons_self p P2))
      (ih (fun l hl => hP l (List.mem_cons_of_mem p hl)))

theorem nlShaped_drop {L : List (List Char)} (h : nlShaped L = true) :
    ∀ n, nlShaped (L.drop n) = true := by
  induction L with
  | nil => intro n; simp [nlShaped_nil]
  | cons a rest ih =>
    intro n
    cases n with
    | zero => exact h
    | succ m => exact ih (nlShaped_tail h) m

theorem nlShaped_dropLast_mem : ∀ {L : List (List Char)}, nlShaped L = true →
    ∀ l ∈ L.dropLast, isNlLine l = true := by
  intro L
  induction L with
  | nil => intro _ l hl; cases hl
  | cons a rest ih =>
    intro h l hl
    cases rest with
    | nil => cases hl
    | cons b rest2 =>
      rw [List.dropLast_cons₂] at hl
      rcases List.mem_cons.mp hl with he | hmm
      · rw [he]
        rw [nlShaped_cons2] at h
        exact (Bool.and_eq_true_iff.mp h).1
      · exact ih (nlShaped_tail h) l hmm

theorem filterMap_decode_all_none {X : List (List Char)}
    (h : ∀ l ∈ X, decodeLine l = none) : X.filterMap decodeLine = [] := by
  induction X with
  | nil => rfl
  | cons a rest ih =>
    rw [List.filterMap_cons, h a (List.mem_cons_self a rest)]
    exact ih (fun l hl => h l (List.mem_cons_of_mem a hl))

theorem head_dropWhile_false {α : Type} {p : α → Bool} : ∀ {l : List α} {x : α},
    (l.dropWhile p).head? = some x → p x = false := by
  intro l
  induction l with
  | nil => intro x h; cases h
  | cons a t ih =>
    intro x h
    cases hp : p a with
    | true =>
      rw [List.dropWhile_cons_of_pos hp] at h
      exact ih h
    | false =>
      rw [List.dropWhile_cons_of_neg (by rw [hp]; exact Bool.false_ne_true)] at h
      injection h with h
      rw [← h]
      exact hp

theorem tailStart_decomp (L : List (List Char)) :
    ∃ A B, L = A ++ B ∧ find_trailing_brace_tail_start L = A.length ∧
      (∀ l ∈ B, isTailLine l = true) ∧
      (∀ p, A.getLast? = some p → isTailLine p = false) := by
  refine ⟨(L.reverse.dropWhile isTailLine).reverse,
    (L.reverse.takeWhile isTailLine).reverse, ?_, ?_, ?_, ?_⟩
  · have h := List.takeWhile_append_dropWhile (p := isTailLine) (l := L.reverse)
    have h2 : (L.reverse.dropWhile isTailLine).reverse ++
        (L.reverse.takeWhile isTailLine).reverse = L := by
      rw [← List.reverse_append, h, List.reverse_reverse]
    exact h2.symm
  · unfold find_trailing_brace_tail_start
    have h := List.takeWhile_append_dropWhile (p := isTailLine) (l := L.reverse)
    have h2 : (L.reverse.takeWhile isTailLine).length +
        (L.reverse.dropWhile isTailLine).length = L.length := by
      rw [← List.length_append, h, List.length_reverse]
    rw [List.length_reverse]
    omega
  · intro l hl
    rw [List.mem_reverse] at hl
    exact List.mem_takeWhile_imp hl
  · intro p hp
    rw [List.getLast?_reverse] at hp
    exact head_dropWhile_false hp

theorem keepNonIdxs_split_ge {α : Type} : ∀ (f : Nat) (L : List α) (idxs : List Nat)
    (pos : Nat), (∀ i ∈ idxs, pos + f ≤ i) →
    keepNonIdxs idxs pos L = L.take f ++ keepNonIdxs idxs (pos + f) (L.drop f) := by
  intro f
  induction f with
  | zero => intro L idxs pos h; simp
  | succ n ih =>
    intro L idxs pos h
    cases L with
    | nil => simp [keepNonIdxs_nil]
    | cons a rest =>
      rw [keepNonIdxs_cons, if_neg (fun hmem => by have := h pos hmem; omega)]
      rw [List.take_succ_cons, List.drop_succ_cons, List.cons_append]
      congr 1
      have he : pos + 1 + n = pos + (n + 1) := by omega
      have := ih rest idxs (pos + 1) (fun i hi => by have := h i hi; omega)
      rw [he] at this
      exact this

theorem placeBlock_new_slot_eq (lines : List (List Char)) (idxs : List Nat)
    (block : List (List Char)) :
    placeBlock lines idxs block .new_slot =
      newSlotAssemble (removeStations lines (List.insertionSort (· ≤ ·) idxs)) block := rfl

theorem placeBlock_in_place_eq (lines : List (List Char)) (idxs : List Nat)
    (block : List (List Char)) :
    placeBlock lines idxs block .in_place =
      (removeStations lines (List.insertionSort (· ≤ ·) idxs)).take
          (min ((List.insertionSort (· ≤ ·) idxs).headD 0)
            (removeStations lines (List.insertionSort (· ≤ ·) idxs)).length) ++
        block ++
        (removeStations lines (List.insertionSort (· ≤ ·) idxs)).drop
          (min ((List.insertionSort (· ≤ ·) idxs).headD 0)
            (removeStations lines (List.insertionSort (· ≤ ·) idxs)).length) := rfl

theorem keepNonIdxs_sublist {α : Type} (idxs : List Nat) :
    ∀ (pos : Nat) (L : List α), (keepNonIdxs idxs pos L).Sublist L := by
  intro pos L
  induction L generalizing pos with
  | nil => exact List.Sublist.refl []
  | cons a rest ih =>
    rw [keepNonIdxs_cons]
    split
    · exact (ih (pos + 1)).cons a
    · exact (ih (pos + 1)).cons₂ a

theorem not_isTailLine_strip_ne {p : List Char} (h : isTailLine p = false) :
    pyStrip p ≠ [] := by
  unfold isTailLine at h
  intro he
  rw [he] at h
  simp at h

theorem newSlotAssemble_eq (ls block : List (List Char)) :
    newSlotAssemble ls block =
      (match (ls.take (find_trailing_brace_tail_start ls)).getLast? with
        | some p => if pyStrip p = [] then ls.take (find_trailing_brace_tail_start ls)
            else ls.take (find_trailing_brace_tail_start ls) ++ [['\n']]
        | none => ls.take (find_trailing_brace_tail_start ls)) ++
      (match (ls.drop (find_trailing_brace_tail_start ls)).head? with
        | some t0 =>
          if pyStrip t0 = ['\x7d'] then
            match block.getLast? with
            | some b0 => if pyStrip b0 = [] then block else block ++ [['\n']]
            | none => block
          else block
        | none => block) ++
      ls.drop (find_trailing_brace_tail_start ls) := rfl

theorem newSlotAssemble_spec {ls block : List (List Char)}
    (hls : nlShaped ls = true) (hblock : ∀ l ∈ block, isNlLine l = true)
    (hdec : ∀ l ∈ ls, decodeLine l = none) :
    okLines (newSlotAssemble ls block) = true ∧
      (newSlotAssemble ls block).filterMap decodeLine =
        block.filterMap decodeLine := by
  obtain ⟨A, B, hAB, hts, hBtail, hAlast⟩ := tailStart_decomp ls
  have hpre : ls.take (find_trailing_brace_tail_start ls) = A := by
    rw [hts, hAB, List.take_left]
  have htail : ls.drop (find_trailing_brace_tail_start ls) = B := by
    rw [hts, hAB, List.drop_left]
  have hAmem : ∀ l ∈ A, l ∈ ls := fun l hl => by rw [hAB]; exact List.mem_append_left B hl
  have hBmem : ∀ l ∈ B, l ∈ ls := fun l hl => by rw [hAB]; exact List.mem_append_right A hl
  set pre2 := (match A.getLast? with
    | some p => if pyStrip p = [] then A else A ++ [['\n']]
    | none => A) with hpre2
  set block2 := (match B.head? with
    | some t0 =>
      if pyStrip t0 = ['\x7d'] then
        match block.getLast? with
        | some b0 => if pyStrip b0 = [] then block else block ++ [['\n']]
        | none => block
      else block
    | none => block) with hblock2
  have hplaced : newSlotAssemble ls block = pre2 ++ block2 ++ B := by
    rw [newSlotAssemble_eq, hpre, htail, hpre2, hblock2]
  have hpre2cases : pre2 = A ∨ pre2 = A ++ [['\n']] := by
    rw [hpre2]
    cases A.getLast? with
    | none => exact Or.inl rfl
    | some p =>
      show (if pyStrip p = [] then A else A ++ [['\n']]) = A ∨
        (if pyStrip p = [] then A else A ++ [['\n']]) = A ++ [['\n']]
      by_cases h1 : pyStrip p = []
      · rw [if_pos h1]; exact Or.inl rfl
      · rw [if_neg h1]; exact Or.inr rfl
  have hblock2cases : block2 = block ∨ block2 = block ++ [['\n']] := by
    rw [hblock2]
    cases B.head? with
    | none => exact Or.inl rfl
    | some t0 =>
      show (if pyStrip t0 = ['\x7d'] then
          (match block.getLast? with
           | some b0 => if pyStrip b0 = [] then block else block ++ [['\n']]
           | none => block)
        else block) = block ∨
        (if pyStrip t0 = ['\x7d'] then
          (match block.getLast? with
           | some b0 => if pyStrip b0 = [] then block else block ++ [['\n']]
           | none => block)
        else block) = block ++ [['\n']]
      by_cases h1 : pyStrip t0 = ['\x7d']
      · rw [if_pos h1]
        cases block.getLast? with
        | none => exact Or.inl rfl
        | some b0 =>
          show (if pyStrip b0 = [] then block else block ++ [['\n']]) = block ∨
            (if pyStrip b0 = [] then block else block ++ [['\n']]) = block ++ [['\n']]
          by_cases h2 : pyStrip b0 = []
          · rw [if_pos h2]; exact Or.inl rfl
          · rw [if_neg h2]; exact Or.inr rfl
      · rw [if_neg h1]; exact Or.inl rfl
  have hblock2nl : ∀ l ∈ block2, isNlLine l = true := by
    intro l hl
    rcases hblock2cases with h | h <;> rw [h] at hl
    · exact hblock l hl
    · rcases List.mem_append.mp hl with hm | hm
      · exact hblock l hm
      · simp only [List.mem_singleton] at hm
        rw [hm]
        decide
  have hblock2fm : block2.filterMap decodeLine = block.filterMap decodeLine := by
    rcases hblock2cases with h | h <;> rw [h]
    rw [List.filterMap_append]
    simp [decodeLine_nl_line]
  have hfm : (newSlotAssemble ls block).filterMap decodeLine =
      block.filterMap decodeLine := by
    rw [hplaced, List.filterMap_append, List.filterMap_append]
    have hA0 : pre2.filterMap decodeLine = [] := by
      refine filterMap_decode_all_none ?_
      intro l hl
      have hmem : l ∈ A ∨ l = ['\n'] := by
        rcases hpre2cases with h | h <;> rw [h] at hl
        · exact Or.inl hl
        · rcases List.mem_append.mp hl with hm | hm
          · exact Or.inl hm
          · simp only [List.mem_singleton] at hm
            exact Or.inr hm
      rcases hmem with hm | hm
      · exact hdec l (hAmem l hm)
      · rw [hm]; exact decodeLine_nl_line
    have hB0 : B.filterMap decodeLine = [] :=
      filterMap_decode_all_none (fun l hl => hdec l (hBmem l hl))
    rw [hA0, hB0, hblock2fm, List.nil_append, List.append_nil]
  refine ⟨?_, hfm⟩
  rcases nlShaped_cases hls with hall | ⟨P, b, hPb, hPnl, hbbare, hbnl⟩
  · have hAnl : ∀ l ∈ A, isNlLine l = true := fun l hl => hall l (hAmem l hl)
    have hBnl : ∀ l ∈ B, isNlLine l = true := fun l hl => hall l (hBmem l hl)
    have hpre2nl : ∀ l ∈ pre2, isNlLine l = true := by
      intro l hl
      rcases hpre2cases with h | h <;> rw [h] at hl
      · exact hAnl l hl
      · rcases List.mem_append.mp hl with hm | hm
        · exact hAnl l hm
        · simp only [List.mem_singleton] at hm
          rw [hm]; decide
    rw [hplaced]
    refine okLines_allNl ?_
    intro l hl
    rcases List.mem_append.mp hl with hm | hm
    · rcases List.mem_append.mp hm with hm2 | hm2
      · exact hpre2nl l hm2
      · exact hblock2nl l hm2
    · exact hBnl l hm
  · rw [hAB] at hPb
    rcases List.eq_nil_or_concat B with hBnil | ⟨B2, y, hBy⟩
    · subst hBnil
      rw [List.append_nil] at hPb
      subst hPb
      have hlastA : (P ++ [b]).getLast? = some b := by
        rw [List.getLast?_append]
        rfl
      have hstrip : ¬ pyStrip b = [] :=
        not_isTailLine_strip_ne (hAlast b hlastA)
      have hpre2eq : pre2 = (P ++ [b]) ++ [['\n']] := by
        rw [hpre2, hlastA]
        show (if pyStrip b = [] then P ++ [b] else (P ++ [b]) ++ [['\n']]) = _
        rw [if_neg hstrip]
      rw [hplaced, hpre2eq]
      have hshape : ((P ++ [b]) ++ [['\n']]) ++ block2 ++ ([] : List (List Char)) =
          P ++ b :: ['\n'] :: block2 := by
        simp
      rw [hshape]
      exact okLines_bare_mid hPnl hbbare hblock2nl
    · subst hBy
      have h2 : A ++ B2 = P ∧ [y] = [b] := by
        have hre : (A ++ B2) ++ [y] = P ++ [b] := by
          rw [← hPb]
          simp
        exact List.append_inj' hre rfl
      obtain ⟨hAB2, hyb⟩ := h2
      have hy : y = b := by injection hyb
      subst hy
      have hAnl : ∀ l ∈ A, isNlLine l = true := by
        intro l hl
        exact hPnl l (by rw [← hAB2]; exact List.mem_append_left B2 hl)
      have hB2nl : ∀ l ∈ B2, isNlLine l = true := by
        intro l hl
        exact hPnl l (by rw [← hAB2]; exact List.mem_append_right A hl)
      have hpre2nl : ∀ l ∈ pre2, isNlLine l = true := by
        intro l hl
        rcases hpre2cases with h | h <;> rw [h] at hl
        · exact hAnl l hl
        · rcases List.mem_append.mp hl with hm | hm
          · exact hAnl l hm
          · simp only [List.mem_singleton] at hm
            rw [hm]; decide
      rw [hplaced]
      have hshape : pre2 ++ block2 ++ B2.concat y =
          (pre2 ++ block2 ++ B2) ++ [y] := by
        simp
      rw [hshape]
      refine okLines_allNl_bare ?_ hbbare
      intro l hl
      rcases List.mem_append.mp hl with hm | hm
      · rcases List.mem_append.mp hm with hm2 | hm2
        · exact hpre2nl l hm2
        · exact hblock2nl l hm2
      · exact hB2nl l hm

theorem sidxs_eq (L : List (List Char)) :
    List.insertionSort (· ≤ ·) (stationIdxsFrom 0 L) = stationIdxsFrom 0 L :=
  List.Sorted.insertionSort_eq ((stationIdxsFrom_pairwise L 0).imp le_of_lt)

theorem removeStations_stationIdxs (L : List (List Char)) :
    removeStations L (List.insertionSort (· ≤ ·) (stationIdxsFrom 0 L)) =
      L.filter (fun x => (decodeLine x).isNone) := by
  rw [removeStations_eq_keep (stationIdxsFrom_pairwise L 0)
    (fun i hi => by have := stationIdxsFrom_mem_lt hi; simpa using this)]
  exact keep_stationIdxs_eq_filter L 0

theorem filter_decode_none {L : List (List Char)} :
    ∀ l ∈ L.filter (fun x => (decodeLine x).isNone), decodeLine l = none := by
  intro l hl
  have h := (List.mem_filter.mp hl).2
  exact Option.isNone_iff_eq_none.mp h

theorem placeBlock_in_place_spec {L block : List (List Char)}
    (hL : nlShaped L = true) (hblock : ∀ l ∈ block, isNlLine l = true) :
    okLines (placeBlock L (stationIdxsFrom 0 L) block .in_place) = true ∧
      (placeBlock L (stationIdxsFrom 0 L) block .in_place).filterMap decodeLine =
        block.filterMap decodeLine := by
  have hrm := removeStations_stationIdxs L
  have heq : placeBlock L (stationIdxsFrom 0 L) block .in_place =
      (L.filter (fun x => (decodeLine x).isNone)).take
          (min ((stationIdxsFrom 0 L).headD 0)
            (L.filter (fun x => (decodeLine x).isNone)).length) ++
        block ++
        (L.filter (fun x => (decodeLine x).isNone)).drop
          (min ((stationIdxsFrom 0 L).headD 0)
            (L.filter (fun x => (decodeLine x).isNone)).length) := by
    rw [placeBlock_in_place_eq, hrm, sidxs_eq]
  set R := L.filter (fun x => (decodeLine x).isNone) with hR
  have hRnl : nlShaped R = true := nlShaped_sublist (List.filter_sublist L) hL
  have hRdec : ∀ l ∈ R, decodeLine l = none := filter_decode_none
  have hfm : ∀ k, (R.take k ++ block ++ R.drop k).filterMap decodeLine =
      block.filterMap decodeLine := by
    intro k
    rw [List.filterMap_append, List.filterMap_append]
    rw [filterMap_decode_all_none (fun l hl => hRdec l (List.take_subset k R hl)),
      filterMap_decode_all_none (fun l hl => hRdec l (List.drop_subset k R hl))]
    simp
  rw [heq]
  refine ⟨?_, hfm _⟩
  cases hidx : stationIdxsFrom 0 L with
  | nil =>
    have h0 : min (List.headD ([] : List Nat) 0) R.length = 0 := by simp
    rw [h0, List.take_zero, List.drop_zero, List.nil_append]
    exact okLines_of_nlShaped (nlShaped_append hblock hRnl)
  | cons f0 rest =>
    have hpw : List.Pairwise (· < ·) (f0 :: rest) := by
      rw [← hidx]
      exact stationIdxsFrom_pairwise L 0
    have hge : ∀ i ∈ stationIdxsFrom 0 L, 0 + f0 ≤ i := by
      intro i hi
      rw [hidx] at hi
      rcases List.mem_cons.mp hi with he | hm
      · omega
      · have := (List.pairwise_cons.mp hpw).1 i hm
        omega
    have hf0lt : f0 < L.length := by
      have : f0 ∈ stationIdxsFrom 0 L := by
        rw [hidx]
        exact List.mem_cons_self f0 rest
      have := stationIdxsFrom_mem_lt this
      simpa using this
    have hRsplit : R = L.take f0 ++ keepNonIdxs (stationIdxsFrom 0 L) f0 (L.drop f0) := by
      rw [hR, ← keep_stationIdxs_eq_filter L 0, keepNonIdxs_split_ge f0 L _ 0 hge]
      simp
    set K := keepNonIdxs (stationIdxsFrom 0 L) f0 (L.drop f0) with hK
    have hlen : (L.take f0).length = f0 := by
      rw [List.length_take]
      omega
    have hRlen : R.length = f0 + K.length := by
      rw [hRsplit, List.length_append, hlen]
    have hmin : min (List.headD (f0 :: rest) 0) R.length = f0 := by
      simp only [List.headD_cons]
      omega
    rw [hmin]
    have hT1 : R.take f0 = L.take f0 := by
      rw [hRsplit]
      exact List.take_left' hlen
    have hT2 : R.drop f0 = K := by
      rw [hRsplit]
      exact List.drop_left' hlen
    rw [hT1, hT2]
    have hT1nl : ∀ l ∈ L.take f0, isNlLine l = true := by
      intro l hl
      have hsub : L.take f0 = (L.dropLast).take f0 := by
        rw [List.dropLast_eq_take, List.take_take]
        congr 1
        omega
      rw [hsub] at hl
      exact nlShaped_dropLast_mem hL l (List.take_subset f0 L.dropLast hl)
    have hKnl : nlShaped K = true :=
      nlShaped_sublist (keepNonIdxs_sublist _ f0 (L.drop f0)) (nlShaped_drop hL f0)
    refine okLines_of_nlShaped (nlShaped_append ?_ hKnl)
    intro l hl
    rcases List.mem_append.mp hl with hm | hm
    · exact hT1nl l hm
    · exact hblock l hm

theorem placeBlock_spec {L block : List (List Char)}
    (hL : nlShaped L = true) (hblock : ∀ l ∈ block, isNlLine l = true)
    (strat : Strategy) :
    okLines (placeBlock L (stationIdxsFrom 0 L) block strat) = true ∧
      (placeBlock L (stationIdxsFrom 0 L) block strat).filterMap decodeLine =
        block.filterMap decodeLine := by
  cases strat with
  | in_place => exact placeBlock_in_place_spec hL hblock
  | new_slot =>
    rw [placeBlock_new_slot_eq, removeStations_stationIdxs]
    exact newSlotAssemble_spec
      (nlShaped_sublist (List.filter_sublist L) hL) hblock filter_decode_none

theorem write_ok_elim {fileName ts : List Char} {original_lines : List (List Char)}
    {idxs : List Nat} {stations : List Station} {strat : Strategy} {w : WriteOutcome}
    (h : write_live_streams fileName ts original_lines idxs stations strat = .ok w) :
    ∃ block, encodeStationsFrom 0 stations = .ok block ∧
      w.newLines = (update_stream_data_count_line stations.length
        (placeBlock original_lines idxs block strat)).1 ∧
      w.backupDirName = "live_streams_backup".toList ∧
      w.backupFileName = fileName ++ ".bak_".toList ++ ts ∧
      w.backupContent = joinL original_lines := by
  unfold write_live_streams at h
  cases hb : encodeStationsFrom 0 stations with
  | error e => rw [hb] at h; cases h
  | ok block =>
    rw [hb] at h
    injection h with h
    exact ⟨block, rfl, by rw [← h], by rw [← h], by rw [← h], by rw [← h]⟩

theorem write_roundtrip {text : List Char} {stations2 : List Station}
    {fileName ts : List Char} {strat : Strategy} {w : WriteOutcome}
    (htext : textOk text = true)
    (hclean : ∀ s ∈ stations2, cleanStation s)
    (hw : write_live_streams fileName ts (splitlinesKeep text)
      (stationIdxsFrom 0 (splitlinesKeep text)) stations2 strat = .ok w) :
    (splitlinesKeep (joinL w.newLines)).filterMap decodeLine = stations2 := by
  have hLnl : nlShaped (splitlinesKeep text) = true := nlShaped_splitlinesKeep htext
  obtain ⟨block, hb, hnew, _, _, _⟩ := write_ok_elim hw
  have hblocknl : ∀ l ∈ block, isNlLine l = true := by
    intro l hl
    rcases encodeStationsFrom_ok_elim hb l hl with ⟨j, st, hsm, hleq, _⟩
    rw [hleq]
    exact encodedLine_isNl (hclean st hsm)
  obtain ⟨hpok, hpfm⟩ := placeBlock_spec hLnl hblocknl strat
  have hupok : okLines w.newLines = true := by
    rw [hnew]
    exact update_fst_okLines hpok
  have hupfm : w.newLines.filterMap decodeLine = stations2 := by
    rw [hnew, update_fst_filterMap (okLines_mem_shape hpok), hpfm,
      encodeStationsFrom_filterMap hb hclean]
  rw [filterMap_decode_split_ok hupok, hupfm]

/-! ### Bitrate sign analysis -/

theorem pyIntOr0_nonneg {cs : List Char} (h : '-' ∉ cs) : 0 ≤ pyIntOr0 cs := by
  have hne : ∀ rest, pyStrip cs ≠ '-' :: rest := fun rest he =>
    h (mem_of_mem_pyStrip (he ▸ List.mem_cons_self '-' rest))
  unfold pyIntOr0 pyIntOfChars
  split
  · rename_i rest heq
    cases hn : pyNatOfChars rest with
    | none => simp [hn]
    | some n => simp [hn]
  · rename_i rest heq
    exact absurd heq (hne rest)
  · cases hn : pyNatOfChars (pyStrip cs) with
    | none => simp [hn]
    | some n => simp [hn]

theorem streamMatch_mem {cs ds payload : List Char}
    (h : streamMatch cs = some (ds, payload)) : ∀ c ∈ payload, c ∈ cs := by
  unfold streamMatch at h
  cases h1 : stripPfx (streamDataLit ++ ['[']) (cs.dropWhile isPySpace) with
  | none => rw [h1] at h; cases h
  | some r2 =>
    rw [h1] at h
    rw [Option.some_bind] at h
    simp only [] at h
    split at h
    · cases h
    · cases h2 : stripPfx [']'] (r2.dropWhile Char.isDigit) with
      | none => rw [h2] at h; cases h
      | some r4 =>
        rw [h2] at h
        rw [Option.some_bind] at h
        cases h3 : stripPfx [':'] (r4.dropWhile isPySpace) with
        | none => rw [h3] at h; cases h
        | some r5 =>
          rw [h3] at h
          rw [Option.some_bind] at h
          cases h4 : stripPfx ['"'] (r5.dropWhile isPySpace) with
          | none => rw [h4] at h; cases h
          | some r6 =>
            rw [h4] at h
            rw [Option.some_bind] at h
            cases h5 : stripPfx ['"'] (r6.reverse.dropWhile isPySpace) with
            | none => rw [h5] at h; cases h
            | some payloadRev =>
              rw [h5] at h
              rw [Option.some_bind] at h
              split at h
              · cases h
              · simp only [Option.some.injEq, Prod.mk.injEq] at h
                obtain ⟨hds, hpl⟩ := h
                intro c hc
                rw [← hpl] at hc
                rw [List.mem_reverse] at hc
                have hc6 : c ∈ r6 := by
                  have he := stripPfx_eq_some h5
                  have : c ∈ r6.reverse.dropWhile isPySpace := by
                    rw [he]
                    exact List.mem_cons_of_mem _ hc
                  have := (List.dropWhile_sublist (isPySpace)).subset this
                  rwa [List.mem_reverse] at this
                have hc5 : c ∈ r5 := by
                  have he := stripPfx_eq_some h4
                  have : c ∈ r5.dropWhile isPySpace := by
                    rw [he]
                    exact List.mem_cons_of_mem _ hc6
                  exact (List.dropWhile_sublist (isPySpace)).subset this
                have hc4 : c ∈ r4 := by
                  have he := stripPfx_eq_some h3
                  have : c ∈ r4.dropWhile isPySpace := by
                    rw [he]
                    exact List.mem_cons_of_mem _ hc5
                  exact (List.dropWhile_sublist (isPySpace)).subset this
                have hc2 : c ∈ r2 := by
                  have he := stripPfx_eq_some h2
                  have : c ∈ r2.dropWhile Char.isDigit := by
                    rw [he]
                    exact List.mem_cons_of_mem _ hc4
                  exact (List.dropWhile_sublist (Char.isDigit)).subset this
                have he := stripPfx_eq_some h1
                have : c ∈ cs.dropWhile isPySpace := by
                  rw [he]
                  exact List.mem_append_right _ hc2
                exact (List.dropWhile_sublist (isPySpace)).subset this

theorem decodeLine_some_elim {line : List Char} {s : Station}
    (h : decodeLine line = some s) :
    ∃ ds payload u n g la b f, streamMatch (pyRstripNl line) = some (ds, payload) ∧
      splitOnChar '|' payload = [u, n, g, la, b, f] ∧
      s = Station.mk (pyStrip u) (pyStrip n) (pyStrip g) (pyStrip la)
        (pyIntOr0 b) (decide (pyStrip f = ['1'])) := by
  unfold decodeLine at h
  split at h
  · cases h
  · next ds payload hsm =>
    split at h
    · next u n g la b f hsp =>
      injection h with h
      exact ⟨ds, payload, u, n, g, la, b, f, hsm, hsp, h.symm⟩
    · cases h

theorem decode_bitrate_nonneg {line : List Char} {s : Station}
    (h : decodeLine line = some s) (hm : '-' ∉ line) : 0 ≤ s.bitrate := by
  rcases decodeLine_some_elim h with ⟨ds, payload, u, n, g, la, b, f, hsm, hsp, hs⟩
  have hb : '-' ∉ b := by
    intro hc
    apply hm
    have hbp : b ∈ splitOnChar '|' payload := by
      rw [hsp]
      simp
    have : '-' ∈ payload := mem_of_mem_splitOnChar hbp hc
    exact mem_of_mem_pyRstripNl (streamMatch_mem hsm _ this)
  rw [hs]
  exact pyIntOr0_nonneg hb

theorem parse_none_eq : parse_live_streams none = .error .fileNotFound := rfl

theorem parse_some_eq (text : List Char) : parse_live_streams (some text) =
    (if (splitlinesKeep text).filterMap decodeLine = [] then .error .noStationsFound
     else .ok { lines := splitlinesKeep text,
                station_line_indexes := stationIdxsFrom 0 (splitlinesKeep text),
                stations := (splitlinesKeep text).filterMap decodeLine }) := rfl

theorem parse_ok_elim {text : List Char} {doc : ParsedDoc}
    (h : parse_live_streams (some text) = .ok doc) :
    doc.lines = splitlinesKeep text ∧
      doc.stations = (splitlinesKeep text).filterMap decodeLine ∧
      doc.station_line_indexes = stationIdxsFrom 0 (splitlinesKeep text) ∧
      doc.stations ≠ [] := by
  rw [parse_some_eq] at h
  split at h
  · cases h
  · next hne =>
    injection h with h
    refine ⟨by rw [← h], by rw [← h], by rw [← h], ?_⟩
    rw [← h]
    exact hne

/-! ### Frame lemmas of the count-line rewrite -/

theorem update_eq_first_some {n : Nat} {L : List (List Char)} {i : Nat}
    (h : firstCountIdx L = some i) :
    update_stream_data_count_line n L =
      (L.set i (rebuiltCount n (L.getD i [])), true) := by
  have e := update_eq_first n L
  rw [h] at e
  exact e

theorem update_eq_first_none {n : Nat} {L : List (List Char)}
    (h : firstCountIdx L = none) :
    update_stream_data_count_line n L = (L, false) := by
  have e := update_eq_first n L
  rw [h] at e
  exact e

theorem dropFirstCount_cons_match {l : List Char}
    (hc : (countMatch (pyRstripNl l)).isSome = true) (rest : List (List Char)) :
    dropFirstCount (l :: rest) = rest := by
  unfold dropFirstCount
  rw [if_pos hc]

theorem dropFirstCount_cons_nomatch {l : List Char}
    (hc : countMatch (pyRstripNl l) = none) (rest : List (List Char)) :
    dropFirstCount (l :: rest) = l :: dropFirstCount rest := by
  unfold dropFirstCount
  rw [if_neg (by rw [hc]; simp)]
  cases rest <;> rfl

theorem update_fst_append_nomatch {n : Nat} {X Y : List (List Char)}
    (hX : ∀ l ∈ X, countMatch (pyRstripNl l) = none) :
    (update_stream_data_count_line n (X ++ Y)).1 =
      X ++ (update_stream_data_count_line n Y).1 := by
  induction X with
  | nil => rfl
  | cons a rest ih =>
    have ha := hX a (List.mem_cons_self a rest)
    rw [List.cons_append, update_cons_nomatch ha,
      ih (fun l hl => hX l (List.mem_cons_of_mem a hl))]
    rfl

theorem update_fst_append_match {n : Nat} : ∀ {X : List (List Char)}
    (Y : List (List Char)), firstCountIdx X ≠ none →
    (update_stream_data_count_line n (X ++ Y)).1 =
      (update_stream_data_count_line n X).1 ++ Y := by
  intro X
  induction X with
  | nil => intro Y h; exact absurd rfl h
  | cons a rest ih =>
    intro Y h
    cases hc : countMatch (pyRstripNl a) with
    | some v =>
      obtain ⟨pre, ds, suf⟩ := v
      rw [List.cons_append, update_cons_match hc, update_cons_match hc]
      rfl
    | none =>
      have hrest : firstCountIdx rest ≠ none := by
        intro hnone
        rw [firstCountIdx_cons_nomatch hc, hnone] at h
        exact h rfl
      calc (update_stream_data_count_line n ((a :: rest) ++ Y)).1
          = a :: (update_stream_data_count_line n (rest ++ Y)).1 := by
            rw [List.cons_append, update_cons_nomatch hc]
        _ = a :: ((update_stream_data_count_line n rest).1 ++ Y) := by rw [ih Y hrest]
        _ = (a :: (update_stream_data_count_line n rest).1) ++ Y := by
            rw [List.cons_append]
        _ = (update_stream_data_count_line n (a :: rest)).1 ++ Y := by
            rw [update_cons_nomatch hc]

theorem dropFirstCount_append_nomatch {X Y : List (List Char)}
    (hX : ∀ l ∈ X, countMatch (pyRstripNl l) = none) :
    dropFirstCount (X ++ Y) = X ++ dropFirstCount Y := by
  induction X with
  | nil => rfl
  | cons a rest ih =>
    have ha := hX a (List.mem_cons_self a rest)
    rw [List.cons_append, dropFirstCount_cons_nomatch ha,
      ih (fun l hl => hX l (List.mem_cons_of_mem a hl)), List.cons_append]

theorem dropFirstCount_append_match : ∀ {X : List (List Char)}
    (Y : List (List Char)), firstCountIdx X ≠ none →
    dropFirstCount (X ++ Y) = dropFirstCount X ++ Y := by
  intro X
  induction X with
  | nil => intro Y h; exact absurd rfl h
  | cons a rest ih =>
    intro Y h
    cases hc : countMatch (pyRstripNl a) with
    | some v =>
      rw [List.cons_append, dropFirstCount_cons_match (by rw [hc]; rfl),
        dropFirstCount_cons_match (by rw [hc]; rfl)]
    | none =>
      have hrest : firstCountIdx rest ≠ none := by
        intro hnone
        rw [firstCountIdx_cons_nomatch hc, hnone] at h
        exact h rfl
      rw [List.cons_append, dropFirstCount_cons_nomatch hc,
        dropFirstCount_cons_nomatch hc, ih Y hrest, List.cons_append]

theorem dropFirstCount_sublist_update (n : Nat) : ∀ (L : List (List Char)),
    (dropFirstCount L).Sublist (update_stream_data_count_line n L).1 := by
  intro L
  induction L with
  | nil => exact List.Sublist.refl []
  | cons a rest ih =>
    cases hc : countMatch (pyRstripNl a) with
    | some v =>
      obtain ⟨pre, ds, suf⟩ := v
      rw [dropFirstCount_cons_match (by rw [hc]; rfl), update_cons_match hc]
      exact List.sublist_cons_self _ rest
    | none =>
      rw [dropFirstCount_cons_nomatch hc, update_cons_nomatch hc]
      exact ih.cons₂ a

theorem newSlotAssemble_shape (ls block : List (List Char)) :
    ∃ A B pre2 block2, ls = A ++ B ∧
      newSlotAssemble ls block = pre2 ++ block2 ++ B ∧
      (pre2 = A ∨ pre2 = A ++ [['\n']]) ∧
      (block2 = block ∨ block2 = block ++ [['\n']]) := by
  obtain ⟨A, B, hAB, hts, hBtail, hAlast⟩ := tailStart_decomp ls
  have hpre : ls.take (find_trailing_brace_tail_start ls) = A := by
    rw [hts, hAB, List.take_left]
  have htail : ls.drop (find_trailing_brace_tail_start ls) = B := by
    rw [hts, hAB, List.drop_left]
  set pre2 := (match A.getLast? with
    | some p => if pyStrip p = [] then A else A ++ [['\n']]
    | none => A) with hpre2
  set block2 := (match B.head? with
    | some t0 =>
      if pyStrip t0 = ['\x7d'] then
        match block.getLast? with
        | some b0 => if pyStrip b0 = [] then block else block ++ [['\n']]
        | none => block
      else block
    | none => block) with hblock2
  refine ⟨A, B, pre2, block2, hAB, ?_, ?_, ?_⟩
  · rw [newSlotAssemble_eq, hpre, htail, hpre2, hblock2]
  · rw [hpre2]
    cases A.getLast? with
    | none => exact Or.inl rfl
    | some p =>
      show (if pyStrip p = [] then A else A ++ [['\n']]) = A ∨
        (if pyStrip p = [] then A else A ++ [['\n']]) = A ++ [['\n']]
      by_cases h1 : pyStrip p = []
      · rw [if_pos h1]; exact Or.inl rfl
      · rw [if_neg h1]; exact Or.inr rfl
  · rw [hblock2]
    cases B.head? with
    | none => exact Or.inl rfl
    | some t0 =>
      show (if pyStrip t0 = ['\x7d'] then
          (match block.getLast? with
           | some b0 => if pyStrip b0 = [] then block else block ++ [['\n']]
           | none => block)
        else block) = block ∨
        (if pyStrip t0 = ['\x7d'] then
          (match block.getLast? with
           | some b0 => if pyStrip b0 = [] then block else block ++ [['\n']]
           | none => block)
        else block) = block ++ [['\n']]
      by_cases h1 : pyStrip t0 = ['\x7d']
      · rw [if_pos h1]
        cases block.getLast? with
        | none => exact Or.inl rfl
        | some b0 =>
          show (if pyStrip b0 = [] then block else block ++ [['\n']]) = block ∨
            (if pyStrip b0 = [] then block else block ++ [['\n']]) = block ++ [['\n']]
          by_cases h2 : pyStrip b0 = []
          · rw [if_pos h2]; exact Or.inl rfl
          · rw [if_neg h2]; exact Or.inr rfl
      · rw [if_neg h1]; exact Or.inl rfl

theorem dropFC_sublist_assembled {A B M A2 : List (List Char)} {n : Nat}
    (hA2 : A2 = A ∨ A2 = A ++ [['\n']])
    (hM : ∀ l ∈ M, countMatch (pyRstripNl l) = none) :
    (dropFirstCount (A ++ B)).Sublist
      (update_stream_data_count_line n (A2 ++ M ++ B)).1 := by
  have hAsub : A.Sublist A2 := by
    rcases hA2 with h | h <;> rw [h]
    exact List.sublist_append_left A _
  by_cases hA : firstCountIdx A = none
  · have hAnone : ∀ l ∈ A, countMatch (pyRstripNl l) = none :=
      firstCountIdx_none_iff.mp hA
    have hA2none : ∀ l ∈ A2, countMatch (pyRstripNl l) = none := by
      intro l hl
      rcases hA2 with h | h <;> rw [h] at hl
      · exact hAnone l hl
      · rcases List.mem_append.mp hl with hm | hm
        · exact hAnone l hm
        · simp only [List.mem_singleton] at hm
          rw [hm]
          exact countMatch_nil
    rw [dropFirstCount_append_nomatch hAnone]
    have h1 : (update_stream_data_count_line n (A2 ++ M ++ B)).1 =
        (A2 ++ M) ++ (update_stream_data_count_line n B).1 := by
      have e : A2 ++ M ++ B = A2 ++ (M ++ B) := by simp
      rw [e, update_fst_append_nomatch hA2none, update_fst_append_nomatch hM]
      simp
    rw [h1]
    refine List.Sublist.append (hAsub.trans (List.sublist_append_left A2 M)) ?_
    exact (dropFirstCount_sublist_update n B).trans
      (List.Sublist.refl _)
  · rw [dropFirstCount_append_match B hA]
    have hA2m : firstCountIdx A2 ≠ none := by
      rcases hA2 with h | h <;> rw [h]
      · exact hA
      · intro hnone
        exact hA (firstCountIdx_none_iff.mpr (fun l hl =>
          firstCountIdx_none_iff.mp hnone l (List.mem_append_left _ hl)))
    have h1 : (update_stream_data_count_line n (A2 ++ M ++ B)).1 =
        ((update_stream_data_count_line n A2).1 ++ M) ++ B := by
      have e : A2 ++ M ++ B = A2 ++ (M ++ B) := by simp
      rw [e, update_fst_append_match (M ++ B) hA2m]
      simp
    rw [h1]
    refine List.Sublist.append ?_ (List.Sublist.refl B)
    have hupd : (dropFirstCount A).Sublist (update_stream_data_count_line n A2).1 := by
      rcases hA2 with h | h <;> rw [h]
      · exact dropFirstCount_sublist_update n A
      · rw [update_fst_append_match [['\n']] hA]
        exact (dropFirstCount_sublist_update n A).trans
          (List.sublist_append_left _ _)
    exact hupd.trans (List.sublist_append_left _ M)

/-- Claim C3: every original line that sits at no station-line index, the
rewritten count line apart, appears unchanged and in the original relative
order in the written output, for both strategies. -/
theorem C3_nonstation_lines_preserved {fileName ts : List Char} {L : List (List Char)}
    {stations : List Station} {strat : Strategy} {w : WriteOutcome}
    (hw : write_live_streams fileName ts L (stationIdxsFrom 0 L) stations strat = .ok w) :
    (dropFirstCount (keepNonIdxs (stationIdxsFrom 0 L) 0 L)).Sublist w.newLines := by
  obtain ⟨block, hb, hnew, _, _, _⟩ := write_ok_elim hw
  have hMnone : ∀ l ∈ block, countMatch (pyRstripNl l) = none := by
    intro l hl
    rcases encodeStationsFrom_ok_elim hb l hl with ⟨j, st, _, hleq, _⟩
    rw [hleq]
    exact countMatch_encodedLine j st
  rw [hnew, keep_stationIdxs_eq_filter L 0]
  cases strat with
  | new_slot =>
    rw [placeBlock_new_slot_eq, removeStations_stationIdxs]
    obtain ⟨A, B, pre2, block2, hAB, hasm, hpre2, hblock2⟩ :=
      newSlotAssemble_shape (L.filter (fun x => (decodeLine x).isNone)) block
    rw [hasm, hAB]
    have hM2 : ∀ l ∈ block2, countMatch (pyRstripNl l) = none := by
      intro l hl
      rcases hblock2 with h | h <;> rw [h] at hl
      · exact hMnone l hl
      · rcases List.mem_append.mp hl with hm | hm
        · exact hMnone l hm
        · simp only [List.mem_singleton] at hm
          rw [hm]
          exact countMatch_nil
    exact dropFC_sublist_assembled hpre2 hM2
  | in_place =>
    rw [placeBlock_in_place_eq, removeStations_stationIdxs]
    set R := L.filter (fun x => (decodeLine x).isNone) with hR
    set k := min ((List.insertionSort (· ≤ ·) (stationIdxsFrom 0 L)).headD 0) R.length
      with hk
    have := dropFC_sublist_assembled (A := R.take k) (B := R.drop k) (M := block)
      (n := stations.length) (Or.inl (rfl : R.take k = R.take k)) hMnone
    rw [List.take_append_drop] at this
    exact this

/-! ### The claims -/

/-- Claim C4 (amended): after a successful write the backup file holds
exactly the file content from before the write, named
`<filename>.bak_<timestamp>`, but the backup directory is the fixed
`live_streams_backup`, not `<filename>_backup` as the spec says. -/
theorem C4_backup_layout {fileName ts : List Char} {original_lines : List (List Char)}
    {idxs : List Nat} {stations : List Station} {strat : Strategy} {w : WriteOutcome}
    (hw : write_live_streams fileName ts original_lines idxs stations strat = .ok w) :
    w.backupContent = joinL original_lines ∧
      w.backupDirName = "live_streams_backup".toList ∧
      w.backupFileName = fileName ++ ".bak_".toList ++ ts := by
  obtain ⟨block, _, _, h1, h2, h3⟩ := write_ok_elim hw
  exact ⟨h3, h1, h2⟩

/-- Witness for claim C4: a concrete successful write over a one-station
document with its station-line index, as the parser produces it. -/
theorem C4_backup_layout_witness :
    write_live_streams ['f'] ['T'] ["stream_data[0]: \"a|b|c|d|1|0\"\n".toList] [0]
        [Station.mk ['u'] ['n'] ['g'] ['l'] 1 false] .in_place = .ok
      ⟨["stream_data[0]: \"u|n|g|l|1|0\"\n".toList], "live_streams_backup".toList,
        ['f'] ++ ".bak_".toList ++ ['T'],
        "stream_data[0]: \"a|b|c|d|1|0\"\n".toList⟩ ∧
    ((⟨["stream_data[0]: \"u|n|g|l|1|0\"\n".toList], "live_streams_backup".toList,
        ['f'] ++ ".bak_".toList ++ ['T'],
        "stream_data[0]: \"a|b|c|d|1|0\"\n".toList⟩ :
          WriteOutcome).backupContent =
        joinL ["stream_data[0]: \"a|b|c|d|1|0\"\n".toList] ∧
      (⟨["stream_data[0]: \"u|n|g|l|1|0\"\n".toList], "live_streams_backup".toList,
        ['f'] ++ ".bak_".toList ++ ['T'],
        "stream_data[0]: \"a|b|c|d|1|0\"\n".toList⟩ :
          WriteOutcome).backupDirName = "live_streams_backup".toList ∧
      (⟨["stream_data[0]: \"u|n|g|l|1|0\"\n".toList], "live_streams_backup".toList,
        ['f'] ++ ".bak_".toList ++ ['T'],
        "stream_data[0]: \"a|b|c|d|1|0\"\n".toList⟩ :
          WriteOutcome).backupFileName = ['f'] ++ ".bak_".toList ++ ['T']) :=
  ⟨by decide, @C4_backup_layout ['f'] ['T']
    ["stream_data[0]: \"a|b|c|d|1|0\"\n".toList] [0]
    [Station.mk ['u'] ['n'] ['g'] ['l'] 1 false] .in_place
    ⟨["stream_data[0]: \"u|n|g|l|1|0\"\n".toList], "live_streams_backup".toList,
      ['f'] ++ ".bak_".toList ++ ['T'],
      "stream_data[0]: \"a|b|c|d|1|0\"\n".toList⟩
    (by decide)⟩

/-- Counterexample for claim C4: for a file named `x.sii` the backup
directory used by a successful write is `live_streams_backup`, not the
`x.sii_backup` the spec announces. -/
theorem C4_backup_dir_counterexample :
    write_live_streams "x.sii".toList ['T']
        ["stream_data[0]: \"a|b|c|d|1|0\"\n".toList] [0]
        [Station.mk ['u'] ['n'] ['g'] ['l'] 1 false] .in_place = .ok
      ⟨["stream_data[0]: \"u|n|g|l|1|0\"\n".toList], "live_streams_backup".toList,
        "x.sii".toList ++ ".bak_".toList ++ ['T'],
        "stream_data[0]: \"a|b|c|d|1|0\"\n".toList⟩ ∧
    ("live_streams_backup".toList : List Char) ≠ "x.sii".toList ++ "_backup".toList :=
  ⟨by decide, by decide⟩

/-- Claim C5: a station field holding the pipe delimiter makes the encoder
fail with fieldContainsDelimiter, the whole write fail with that error, and
the destination file keep its prior content. -/
theorem C5_delimiter_rejection {stations : List Station} {s : Station} {i : Nat}
    (hs : s ∈ stations)
    (hbad : '|' ∈ s.url ∨ '|' ∈ s.name ∨ '|' ∈ s.genre ∨ '|' ∈ s.language)
    (fileName ts content : List Char) (original_lines : List (List Char))
    (idxs : List Nat) (strat : Strategy) :
    station_to_line i s = .error .fieldContainsDelimiter ∧
      write_live_streams fileName ts original_lines idxs stations strat =
        .error .fieldContainsDelimiter ∧
      destFileAfterWrite content fileName ts original_lines idxs stations strat =
        content := by
  have he := encodeStationsFrom_error_of_bad hs hbad 0
  have h2 : write_live_streams fileName ts original_lines idxs stations strat =
      .error .fieldContainsDelimiter := by
    unfold write_live_streams
    rw [he]
  refine ⟨station_to_line_error hbad, h2, ?_⟩
  unfold destFileAfterWrite
  rw [h2]

/-- Witness for claim C5: a station whose url holds the delimiter. -/
theorem C5_delimiter_rejection_witness :
    (Station.mk "u|v".toList ['n'] ['g'] ['l'] 1 false ∈
        [Station.mk "u|v".toList ['n'] ['g'] ['l'] 1 false] ∧
      ('|' ∈ (Station.mk "u|v".toList ['n'] ['g'] ['l'] 1 false).url ∨
        '|' ∈ (Station.mk "u|v".toList ['n'] ['g'] ['l'] 1 false).name ∨
        '|' ∈ (Station.mk "u|v".toList ['n'] ['g'] ['l'] 1 false).genre ∨
        '|' ∈ (Station.mk "u|v".toList ['n'] ['g'] ['l'] 1 false).language)) ∧
    (station_to_line 0 (Station.mk "u|v".toList ['n'] ['g'] ['l'] 1 false) =
        .error .fieldContainsDelimiter ∧
      write_live_streams ['f'] ['T'] [['a'], ['b']] []
          [Station.mk "u|v".toList ['n'] ['g'] ['l'] 1 false] .new_slot =
        .error .fieldContainsDelimiter ∧
      destFileAfterWrite ['c'] ['f'] ['T'] [['a'], ['b']] []
          [Station.mk "u|v".toList ['n'] ['g'] ['l'] 1 false] .new_slot = ['c']) :=
  ⟨⟨by decide, by decide⟩,
    @C5_delimiter_rejection [Station.mk "u|v".toList ['n'] ['g'] ['l'] 1 false]
      (Station.mk "u|v".toList ['n'] ['g'] ['l'] 1 false) 0 (by decide) (by decide)
      ['f'] ['T'] ['c'] [['a'], ['b']] [] .new_slot⟩

/-- Claim C6: parsing a missing file fails with fileNotFound, a file none
of whose lines decodes fails with noStationsFound, and a successful parse
always carries at least one station. -/
theorem C6_parse_error_cases :
    parse_live_streams none = .error .fileNotFound ∧
      (∀ text, (splitlinesKeep text).filterMap decodeLine = [] →
        parse_live_streams (some text) = .error .noStationsFound) ∧
      (∀ text doc, parse_live_streams (some text) = .ok doc → doc.stations ≠ []) := by
  refine ⟨parse_none_eq, ?_, ?_⟩
  · intro text h
    rw [parse_some_eq, if_pos h]
  · intro text doc h
    exact (parse_ok_elim h).2.2.2

/-- Claim C7: the link-destination backup handles each destination state as
specified: nothing to do when absent, outright removal with no backup for a
symlink (dangling or not) or a directory, and a rename to `<name>.backup`
(timestamped when that name is taken) for a regular file. -/
theorem C7_dest_backup_cases (destName ts : List Char) (plainTaken : Bool) :
    safe_backup_existing_dest .absent destName plainTaken ts =
        ⟨none, false⟩ ∧
      safe_backup_existing_dest .danglingSymlink destName plainTaken ts =
        ⟨none, true⟩ ∧
      safe_backup_existing_dest .symlinkFile destName plainTaken ts =
        ⟨none, true⟩ ∧
      safe_backup_existing_dest .directory destName plainTaken ts =
        ⟨none, true⟩ ∧
      safe_backup_existing_dest .regularFile destName false ts =
        ⟨some (destName ++ ".backup".toList), true⟩ ∧
      safe_backup_existing_dest .regularFile destName true ts =
        ⟨some (destName ++ ".backup_".toList ++ ts), true⟩ :=
  ⟨rfl, rfl, rfl, rfl, rfl, rfl⟩

/-- Claim C8 (amended): the elevated-symlink step unlinks only the transient
script (best effort, failures swallowed), on success and failure alike; the
log file is deliberately kept, against the sentence of the spec. -/
theorem C8_temp_cleanup {dE cL : Bool} {logC pO : List Char} {uOk : Bool} :
    (mklink_symlink_admin dE cL logC pO uOk).2.cmdFileExists = !uOk ∧
      (mklink_symlink_admin dE cL logC pO uOk).2.logFileExists = cL := by
  cases dE <;> exact ⟨rfl, rfl⟩

/-- Counterexample for claim C8: with the log file created, it is still
present after the step returns, on the success path and on the failure
path alike — it is not deleted on every exit path as claimed. -/
theorem C8_log_retained_counterexample :
    (mklink_symlink_admin true true ['x'] [] true).2.logFileExists = true ∧
      (mklink_symlink_admin false true ['x'] ['y'] true).2.logFileExists = true := by
  decide

/-- Claim C9 (amended): stations parsed from a file containing no minus sign
have non-negative bitrates; the unrestricted claim is false since int()
accepts negative literals. -/
theorem C9_bitrate_nonneg {text : List Char} {doc : ParsedDoc}
    (hm : '-' ∉ text) (hp : parse_live_streams (some text) = .ok doc) :
    ∀ s ∈ doc.stations, 0 ≤ s.bitrate := by
  obtain ⟨_, hs, _, _⟩ := parse_ok_elim hp
  intro s hsm
  rw [hs] at hsm
  obtain ⟨line, hline, hdec⟩ := List.mem_filterMap.mp hsm
  have hml : '-' ∉ line := by
    intro hc
    apply hm
    have : '-' ∈ joinL (splitlinesKeep text) := by
      unfold joinL
      exact List.mem_flatten.mpr ⟨line, hline, hc⟩
    rwa [joinL_splitlinesKeep] at this
  exact decode_bitrate_nonneg hdec hml

/-- Witness for claim C9: a concrete minus-free file parses with a
non-negative bitrate. -/
theorem C9_bitrate_nonneg_witness :
    ('-' ∉ "stream_data[0]: \"u|n|g|l|7|1\"\n".toList ∧
      parse_live_streams (some "stream_data[0]: \"u|n|g|l|7|1\"\n".toList) = .ok
        ⟨["stream_data[0]: \"u|n|g|l|7|1\"\n".toList], [0],
          [Station.mk ['u'] ['n'] ['g'] ['l'] 7 true]⟩) ∧
    ∀ s ∈ (⟨["stream_data[0]: \"u|n|g|l|7|1\"\n".toList], [0],
        [Station.mk ['u'] ['n'] ['g'] ['l'] 7 true]⟩ : ParsedDoc).stations,
      0 ≤ s.bitrate :=
  ⟨⟨by decide, by decide⟩,
    @C9_bitrate_nonneg "stream_data[0]: \"u|n|g|l|7|1\"\n".toList
      ⟨["stream_data[0]: \"u|n|g|l|7|1\"\n".toList], [0],
        [Station.mk ['u'] ['n'] ['g'] ['l'] 7 true]⟩ (by decide) (by decide)⟩

/-- Counterexample for claim C9: a file whose bitrate field is `-128`
parses into a station with negative bitrate. -/
theorem C9_bitrate_negative_counterexample :
    parse_live_streams (some "stream_data[0]: \"u|n|g|l|-128|0\"\n".toList) = .ok
      ⟨["stream_data[0]: \"u|n|g|l|-128|0\"\n".toList], [0],
        [Station.mk ['u'] ['n'] ['g'] ['l'] (-128) false]⟩ ∧
    (Station.mk ['u'] ['n'] ['g'] ['l'] (-128) false).bitrate < 0 := by
  decide

/-- Claim C10: with at least one count-matching line, the rewrite touches
exactly the first match: the result is a single set at its index, and every
other position is returned unchanged. -/
theorem C10_only_first_count_rewritten {n : Nat} {L : List (List Char)} {i : Nat}
    (h : firstCountIdx L = some i) :
    (update_stream_data_count_line n L).1 =
        L.set i (rebuiltCount n (L.getD i [])) ∧
      ∀ j, j ≠ i → (update_stream_data_count_line n L).1.getD j [] = L.getD j [] := by
  have he := update_eq_first_some (n := n) h
  refine ⟨by rw [he], ?_⟩
  intro j hj
  rw [he]
  simp only [List.getD_eq_getElem?_getD]
  rw [List.getElem?_set_ne (fun hh => hj hh.symm)]

/-- Witness for claim C10: two count lines; only the first is rewritten. -/
theorem C10_only_first_count_witness :
    firstCountIdx ["stream_data: 3\n".toList, "stream_data: 4\n".toList] = some 0 ∧
    ((update_stream_data_count_line 7
          ["stream_data: 3\n".toList, "stream_data: 4\n".toList]).1 =
        ["stream_data: 3\n".toList, "stream_data: 4\n".toList].set 0
          (rebuiltCount 7
            (["stream_data: 3\n".toList, "stream_data: 4\n".toList].getD 0 [])) ∧
      ∀ j, j ≠ 0 →
        (update_stream_data_count_line 7
            ["stream_data: 3\n".toList, "stream_data: 4\n".toList]).1.getD j [] =
          ["stream_data: 3\n".toList, "stream_data: 4\n".toList].getD j []) :=
  ⟨by decide, @C10_only_first_count_rewritten 7
    ["stream_data: 3\n".toList, "stream_data: 4\n".toList] 0 (by decide)⟩

/-- Witness for claim C3: a comment line survives a concrete write. -/
theorem C3_nonstation_lines_preserved_witness :
    write_live_streams ['f'] ['T']
        ["# c\n".toList, "stream_data[0]: \"u|n|g|l|1|0\"\n".toList]
        (stationIdxsFrom 0
          ["# c\n".toList, "stream_data[0]: \"u|n|g|l|1|0\"\n".toList])
        [Station.mk ['u'] ['n'] ['g'] ['l'] 1 false] .in_place = .ok
      ⟨["# c\n".toList, "stream_data[0]: \"u|n|g|l|1|0\"\n".toList],
        "live_streams_backup".toList, ['f'] ++ ".bak_".toList ++ ['T'],
        "# c\nstream_data[0]: \"u|n|g|l|1|0\"\n".toList⟩ ∧
    (dropFirstCount (keepNonIdxs
        (stationIdxsFrom 0
          ["# c\n".toList, "stream_data[0]: \"u|n|g|l|1|0\"\n".toList]) 0
        ["# c\n".toList, "stream_data[0]: \"u|n|g|l|1|0\"\n".toList])).Sublist
      (⟨["# c\n".toList, "stream_data[0]: \"u|n|g|l|1|0\"\n".toList],
        "live_streams_backup".toList, ['f'] ++ ".bak_".toList ++ ['T'],
        "# c\nstream_data[0]: \"u|n|g|l|1|0\"\n".toList⟩ : WriteOutcome).newLines :=
  ⟨by decide, @C3_nonstation_lines_preserved ['f'] ['T']
    ["# c\n".toList, "stream_data[0]: \"u|n|g|l|1|0\"\n".toList]
    [Station.mk ['u'] ['n'] ['g'] ['l'] 1 false] .in_place
    ⟨["# c\n".toList, "stream_data[0]: \"u|n|g|l|1|0\"\n".toList],
      "live_streams_backup".toList, ['f'] ++ ".bak_".toList ++ ['T'],
      "# c\nstream_data[0]: \"u|n|g|l|1|0\"\n".toList⟩ (by decide)⟩

/-- Claim C2: in a successful write, when the worked line sequence has a
count-matching line, the output rewrites the first such line's digits to the
new station count keeping its prefix, suffix and terminator; with no such
line the write succeeds with the sequence untouched. -/
theorem C2_count_line_update {fileName ts : List Char} {original_lines : List (List Char)}
    {idxs : List Nat} {stations : List Station} {strat : Strategy}
    {block : List (List Char)} {w : WriteOutcome}
    (hb : encodeStationsFrom 0 stations = .ok block)
    (hw : write_live_streams fileName ts original_lines idxs stations strat = .ok w) :
    ((firstCountIdx (placeBlock original_lines idxs block strat) = none →
        w.newLines = placeBlock original_lines idxs block strat) ∧
      ∀ i pre ds suf,
        firstCountIdx (placeBlock original_lines idxs block strat) = some i →
        countMatch (pyRstripNl
            ((placeBlock original_lines idxs block strat).getD i [])) =
          some (pre, ds, suf) →
        w.newLines = (placeBlock original_lines idxs block strat).set i
          (pre ++ natChars stations.length ++ suf ++
            termNl ((placeBlock original_lines idxs block strat).getD i []))) := by
  obtain ⟨block2, hb2, hnew, _, _, _⟩ := write_ok_elim hw
  rw [hb] at hb2
  injection hb2 with hbe
  subst hbe
  constructor
  · intro hnone
    rw [hnew, update_eq_first_none hnone]
  · intro i pre ds suf hsome hcm
    rw [hnew, update_eq_first_some hsome, rebuiltCount_of_match hcm]

/-- Witness for claim C2: a two-line document with a count line and a
station line at its recorded index; the write rewrites the count digits. -/
theorem C2_count_line_update_witness :
    (encodeStationsFrom 0 [Station.mk ['u'] ['n'] ['g'] ['l'] 1 false] = .ok
        ["stream_data[0]: \"u|n|g|l|1|0\"\n".toList] ∧
      write_live_streams ['f'] ['T']
          ["stream_data: 9\n".toList, "stream_data[0]: \"a|b|c|d|1|0\"\n".toList] [1]
          [Station.mk ['u'] ['n'] ['g'] ['l'] 1 false] .in_place = .ok
        ⟨["stream_data: 1\n".toList, "stream_data[0]: \"u|n|g|l|1|0\"\n".toList],
          "live_streams_backup".toList, ['f'] ++ ".bak_".toList ++ ['T'],
          "stream_data: 9\nstream_data[0]: \"a|b|c|d|1|0\"\n".toList⟩) ∧
    ((firstCountIdx (placeBlock
          ["stream_data: 9\n".toList, "stream_data[0]: \"a|b|c|d|1|0\"\n".toList] [1]
          ["stream_data[0]: \"u|n|g|l|1|0\"\n".toList] .in_place) = none →
        (⟨["stream_data: 1\n".toList, "stream_data[0]: \"u|n|g|l|1|0\"\n".toList],
          "live_streams_backup".toList, ['f'] ++ ".bak_".toList ++ ['T'],
          "stream_data: 9\nstream_data[0]: \"a|b|c|d|1|0\"\n".toList⟩ :
            WriteOutcome).newLines =
          placeBlock
            ["stream_data: 9\n".toList, "stream_data[0]: \"a|b|c|d|1|0\"\n".toList] [1]
            ["stream_data[0]: \"u|n|g|l|1|0\"\n".toList] .in_place) ∧
      ∀ i pre ds suf,
        firstCountIdx (placeBlock
            ["stream_data: 9\n".toList, "stream_data[0]: \"a|b|c|d|1|0\"\n".toList] [1]
            ["stream_data[0]: \"u|n|g|l|1|0\"\n".toList] .in_place) = some i →
        countMatch (pyRstripNl ((placeBlock
            ["stream_data: 9\n".toList, "stream_data[0]: \"a|b|c|d|1|0\"\n".toList] [1]
            ["stream_data[0]: \"u|n|g|l|1|0\"\n".toList] .in_place).getD i [])) =
          some (pre, ds, suf) →
        (⟨["stream_data: 1\n".toList, "stream_data[0]: \"u|n|g|l|1|0\"\n".toList],
          "live_streams_backup".toList, ['f'] ++ ".bak_".toList ++ ['T'],
          "stream_data: 9\nstream_data[0]: \"a|b|c|d|1|0\"\n".toList⟩ :
            WriteOutcome).newLines =
          (placeBlock
            ["stream_data: 9\n".toList, "stream_data[0]: \"a|b|c|d|1|0\"\n".toList] [1]
            ["stream_data[0]: \"u|n|g|l|1|0\"\n".toList] .in_place).set i
            (pre ++ natChars
              ([Station.mk ['u'] ['n'] ['g'] ['l'] 1 false] : List Station).length ++
              suf ++
              termNl ((placeBlock
                ["stream_data: 9\n".toList,
                  "stream_data[0]: \"a|b|c|d|1|0\"\n".toList] [1]
                ["stream_data[0]: \"u|n|g|l|1|0\"\n".toList] .in_place).getD i []))) :=
  ⟨⟨by decide, by decide⟩,
    @C2_count_line_update ['f'] ['T']
      ["stream_data: 9\n".toList, "stream_data[0]: \"a|b|c|d|1|0\"\n".toList] [1]
      [Station.mk ['u'] ['n'] ['g'] ['l'] 1 false] .in_place
      ["stream_data[0]: \"u|n|g|l|1|0\"\n".toList]
      ⟨["stream_data: 1\n".toList, "stream_data[0]: \"u|n|g|l|1|0\"\n".toList],
        "live_streams_backup".toList, ['f'] ++ ".bak_".toList ++ ['T'],
        "stream_data: 9\nstream_data[0]: \"a|b|c|d|1|0\"\n".toList⟩
      (by decide) (by decide)⟩

/-- Claim C1 (amended): for a parsed document over a CRLF-or-LF text and a
nonempty replacement list of stations with trimmed, break-free fields, a
successful write with either strategy re-parses to exactly the written
list; the unamended spec sentence fails for untrimmed fields. -/
theorem C1_roundtrip_amended {text fileName ts : List Char} {doc : ParsedDoc}
    {stations2 : List Station} {strat : Strategy} {w : WriteOutcome}
    (htext : textOk text = true)
    (hp : parse_live_streams (some text) = .ok doc)
    (hclean : ∀ s ∈ stations2, cleanStation s)
    (hne : stations2 ≠ [])
    (hw : write_live_streams fileName ts doc.lines doc.station_line_indexes
      stations2 strat = .ok w) :
    ∃ doc2, parse_live_streams (some (joinL w.newLines)) = .ok doc2 ∧
      doc2.stations = stations2 := by
  obtain ⟨hl, _, hi, _⟩ := parse_ok_elim hp
  rw [hl, hi] at hw
  have hfm := write_roundtrip htext hclean hw
  refine ⟨⟨splitlinesKeep (joinL w.newLines),
    stationIdxsFrom 0 (splitlinesKeep (joinL w.newLines)),
    (splitlinesKeep (joinL w.newLines)).filterMap decodeLine⟩, ?_, hfm⟩
  rw [parse_some_eq, if_neg (by rw [hfm]; exact hne)]

/-- Witness for claim C1: a concrete two-line document round-trips. -/
theorem C1_roundtrip_amended_witness :
    (textOk "stream_data: 1\nstream_data[0]: \"a|b|c|d|1|0\"\n".toList = true ∧
      parse_live_streams
          (some "stream_data: 1\nstream_data[0]: \"a|b|c|d|1|0\"\n".toList) = .ok
        ⟨["stream_data: 1\n".toList, "stream_data[0]: \"a|b|c|d|1|0\"\n".toList],
          [1], [Station.mk ['a'] ['b'] ['c'] ['d'] 1 false]⟩ ∧
      (∀ s ∈ [Station.mk ['u'] ['n'] ['g'] ['l'] 5 true], cleanStation s) ∧
      ([Station.mk ['u'] ['n'] ['g'] ['l'] 5 true] : List Station) ≠ [] ∧
      write_live_streams ['f'] ['T']
          (⟨["stream_data: 1\n".toList, "stream_data[0]: \"a|b|c|d|1|0\"\n".toList],
            [1], [Station.mk ['a'] ['b'] ['c'] ['d'] 1 false]⟩ : ParsedDoc).lines
          (⟨["stream_data: 1\n".toList, "stream_data[0]: \"a|b|c|d|1|0\"\n".toList],
            [1], [Station.mk ['a'] ['b'] ['c'] ['d'] 1 false]⟩ :
              ParsedDoc).station_line_indexes
          [Station.mk ['u'] ['n'] ['g'] ['l'] 5 true] .in_place = .ok
        ⟨["stream_data: 1\n".toList, "stream_data[0]: \"u|n|g|l|5|1\"\n".toList],
          "live_streams_backup".toList, ['f'] ++ ".bak_".toList ++ ['T'],
          "stream_data: 1\nstream_data[0]: \"a|b|c|d|1|0\"\n".toList⟩) ∧
    (∃ doc2, parse_live_streams (some (joinL
        (⟨["stream_data: 1\n".toList, "stream_data[0]: \"u|n|g|l|5|1\"\n".toList],
          "live_streams_backup".toList, ['f'] ++ ".bak_".toList ++ ['T'],
          "stream_data: 1\nstream_data[0]: \"a|b|c|d|1|0\"\n".toList⟩ :
            WriteOutcome).newLines)) = .ok doc2 ∧
      doc2.stations = [Station.mk ['u'] ['n'] ['g'] ['l'] 5 true]) :=
  ⟨⟨by decide, by decide, by decide, by decide, by decide⟩,
    @C1_roundtrip_amended "stream_data: 1\nstream_data[0]: \"a|b|c|d|1|0\"\n".toList
      ['f'] ['T']
      ⟨["stream_data: 1\n".toList, "stream_data[0]: \"a|b|c|d|1|0\"\n".toList],
        [1], [Station.mk ['a'] ['b'] ['c'] ['d'] 1 false]⟩
      [Station.mk ['u'] ['n'] ['g'] ['l'] 5 true] .in_place
      ⟨["stream_data: 1\n".toList, "stream_data[0]: \"u|n|g|l|5|1\"\n".toList],
        "live_streams_backup".toList, ['f'] ++ ".bak_".toList ++ ['T'],
        "stream_data: 1\nstream_data[0]: \"a|b|c|d|1|0\"\n".toList⟩
      (by decide) (by decide) (by decide) (by decide) (by decide)⟩

/-- Counterexample for claim C1: writing a station whose name carries a
trailing blank and re-parsing yields the trimmed name, so the re-parsed
list is not field-for-field equal to the list that was written. -/
theorem C1_roundtrip_counterexample :
    parse_live_streams (some "stream_data[0]: \"a|b|c|d|1|0\"\n".toList) = .ok
      ⟨["stream_data[0]: \"a|b|c|d|1|0\"\n".toList], [0],
        [Station.mk ['a'] ['b'] ['c'] ['d'] 1 false]⟩ ∧
    (write_live_streams ['f'] ['T'] ["stream_data[0]: \"a|b|c|d|1|0\"\n".toList] [0]
        [Station.mk ['u'] "n ".toList ['g'] ['l'] 5 true] .in_place).map
      (fun w => (splitlinesKeep (joinL w.newLines)).filterMap decodeLine) ≠
      .ok [Station.mk ['u'] "n ".toList ['g'] ['l'] 5 true] := by
  exact ⟨by decide, by decide⟩

end RadioEditor
